import Mathlib

/-!
Verification development for the real-estate keyword extraction pipeline
(`src/core/utils.py`, `src/cli_gemini.py`, `src/cli_mistral.py`,
`src/services/gemini.py`, `src/services/mistral.py`).

Python JSON-like values are embedded as the inductive type `JVal`; Python
dicts (insertion ordered, unique keys) are embedded as association lists
with lookup `dget` (first match) and update `dset` (replace in place,
else append), which reproduces Python dict assignment semantics.
-/

/-- A Python value as produced by `json.loads` / manipulated by the
pipeline: `null`, booleans, integers, non-integer JSON numbers (kept as
their lexeme; no claim inspects them), strings, lists and dicts. -/
inductive JVal where
  | null : JVal
  | bool : Bool → JVal
  | num : Int → JVal
  | numF : String → JVal
  | str : String → JVal
  | arr : List JVal → JVal
  | obj : List (String × JVal) → JVal

/-- A Python dict with `String` keys, as an insertion-ordered association
list with unique keys (uniqueness is an invariant of values built by the
code, stated as a hypothesis where a proof needs it). -/
abbrev JDict := List (String × JVal)

/-- Python `d.get(k)` / `d[k]`: first (and, with unique keys, only)
binding of `k`. -/
def dget : JDict → String → Option JVal
  | [], _ => none
  | (k', v) :: rest, k => if k' = k then some v else dget rest k

/-- Python `d[k] = v`: overwrite the existing binding in place if the key
is present, otherwise append the new binding at the end. -/
def dset : JDict → String → JVal → JDict
  | [], k, v => [(k, v)]
  | (k', v') :: rest, k, v =>
    if k' = k then (k', v) :: rest else (k', v') :: dset rest k v

theorem dget_dset_self (d : JDict) (k : String) (v : JVal) :
    dget (dset d k v) k = some v := by
  induction d with
  | nil => simp [dget, dset]
  | cons hd tl ih =>
    by_cases h : hd.1 = k
    · simp [dget, dset, h]
    · simp [dget, dset, h, ih]

theorem dget_dset_ne (d : JDict) (k k' : String) (v : JVal) (h : k' ≠ k) :
    dget (dset d k' v) k = dget d k := by
  induction d with
  | nil => simp [dget, dset, h]
  | cons hd tl ih =>
    by_cases h2 : hd.1 = k'
    · simp [dget, dset, h2, h]
    · simp only [dset, h2, if_false, dget]
      by_cases h3 : hd.1 = k <;> simp [h3, ih]

/-- Whether a value is dict-shaped (`isinstance(v, dict)` in Python). -/
def isObjB : JVal → Bool
  | JVal.obj _ => true
  | _ => false

/-- Python whitespace stripped by `str.strip()` (ASCII subset; the
documents and sentinels the code compares only use these). -/
def isPyWs (c : Char) : Bool :=
  c = ' ' || c = '\t' || c = '\n' || c = '\r' ||
  c = Char.ofNat 11 || c = Char.ofNat 12

/-- Python `str.strip()` on the underlying character list. -/
def stripList (l : List Char) : List Char :=
  ((l.dropWhile isPyWs).reverse.dropWhile isPyWs).reverse

/-- Python `str.strip()`. -/
def pyStrip (s : String) : String := String.mk (stripList s.data)

/-- Python `str.lower()` (ASCII case folding; the sentinel comparisons in
the code are ASCII). -/
def pyLower (s : String) : String := String.mk (s.data.map Char.toLower)

mutual
/-- Python `str(v)` for a parsed JSON value: `None → "None"`,
`True/False`, numbers as digits, strings unchanged, containers via their
`repr`. Only its use inside `is_found` (comparison against `""` and
`"not found"` after strip/lower) matters; string-escape details of
Python `repr` are elided inside containers. -/
def pyStr : JVal → String
  | JVal.null => "None"
  | JVal.bool true => "True"
  | JVal.bool false => "False"
  | JVal.num n => toString n
  | JVal.numF s => s
  | JVal.str s => s
  | JVal.arr xs => "[" ++ pyReprList xs ++ "]"
  | JVal.obj kvs => "\x7b" ++ pyReprPairs kvs ++ "\x7d"

/-- Python `repr(v)` as used when a container is stringified. -/
def pyRepr : JVal → String
  | JVal.str s => "'" ++ s ++ "'"
  | JVal.arr xs => "[" ++ pyReprList xs ++ "]"
  | JVal.obj kvs => "\x7b" ++ pyReprPairs kvs ++ "\x7d"
  | v => pyStr v

/-- Comma-separated `repr`s of list elements. -/
def pyReprList : List JVal → String
  | [] => ""
  | [x] => pyRepr x
  | x :: rest => pyRepr x ++ ", " ++ pyReprList rest

/-- Comma-separated `'key': repr(value)` renderings of dict items. -/
def pyReprPairs : List (String × JVal) → String
  | [] => ""
  | [(k, v)] => "'" ++ k ++ "': " ++ pyRepr v
  | (k, v) :: rest => "'" ++ k ++ "': " ++ pyRepr v ++ ", " ++ pyReprPairs rest
end

/-- The test `s.strip().lower() not in ("", "not found")` from
`is_found` in `src/core/utils.py`. -/
def foundStrTest (s : String) : Bool :=
  !(pyLower (pyStrip s) == "" || pyLower (pyStrip s) == "not found")

/-- `is_found` from `src/core/utils.py` lines 84-93. -/
def is_found : JVal → Bool
  | JVal.null => false
  | JVal.str s => foundStrTest s
  | JVal.arr xs => decide (0 < xs.length)
  | JVal.obj kvs => kvs.any (fun kv => foundStrTest (pyStr kv.2))
  | _ => true

/-- `val.get("value")` as fed to `is_found`: a missing key yields Python
`None`, i.e. `JVal.null`. -/
def valueEntry (kvs : JDict) : JVal := (dget kvs "value").getD JVal.null

/-- The loop body of `merge_extractions`: `if not isinstance(val, dict):
continue; if is_found(val.get("value")): base[key] = val`. -/
def mergeStep (b : JDict) (kv : String × JVal) : JDict :=
  match kv.2 with
  | JVal.obj vkvs => if is_found (valueEntry vkvs) then dset b kv.1 kv.2 else b
  | _ => b

/-- `merge_extractions` from `src/core/utils.py` lines 95-103: ignore a
non-dict update; copy each dict-shaped entry whose `"value"` is found,
overwriting in place. -/
def merge_extractions (base : JDict) (update : JVal) : JDict :=
  match update with
  | JVal.obj kvs => kvs.foldl mergeStep base
  | _ => base

/-- The copy condition of `merge_extractions` for one update value:
dict-shaped and its `"value"` entry found. -/
def entryFound : JVal → Bool
  | JVal.obj vkvs => is_found (valueEntry vkvs)
  | _ => false

/-- The entry (if any) that an update contributes for key `k` under the
merge rule: present, dict-shaped, and found. -/
def foundEntry (update : JVal) (k : String) : Option JVal :=
  match update with
  | JVal.obj kvs =>
    match dget kvs k with
    | some v => if entryFound v then some v else none
    | none => none
  | _ => none

theorem merge_extractions_obj (base : JDict) (kvs : JDict) :
    merge_extractions base (JVal.obj kvs) = kvs.foldl mergeStep base := rfl

theorem dget_foldl_mergeStep_of_not_mem (es : JDict) (b : JDict) (k : String)
    (h : ∀ e ∈ es, e.1 ≠ k) :
    dget (es.foldl mergeStep b) k = dget b k := by
  induction es generalizing b with
  | nil => rfl
  | cons e tl ih =>
    have hk : e.1 ≠ k := h e (by simp)
    have htl : ∀ e ∈ tl, e.1 ≠ k := fun x hx => h x (by simp [hx])
    rw [List.foldl_cons, ih _ htl]
    cases hv : e.2 with
    | obj vkvs =>
      simp only [mergeStep, hv]
      by_cases hf : is_found (valueEntry vkvs)
      · simp [hf, dget_dset_ne _ _ _ _ hk]
      · simp [hf]
    | null => simp [mergeStep, hv]
    | bool b' => simp [mergeStep, hv]
    | num n => simp [mergeStep, hv]
    | numF s => simp [mergeStep, hv]
    | str s => simp [mergeStep, hv]
    | arr xs => simp [mergeStep, hv]

theorem dget_foldl_mergeStep (kvs : JDict) (b : JDict) (k : String)
    (h : (kvs.map Prod.fst).Nodup) :
    dget (kvs.foldl mergeStep b) k =
      (foundEntry (JVal.obj kvs) k).or (dget b k) := by
  induction kvs generalizing b with
  | nil => simp [foundEntry, dget, Option.or]
  | cons e tl ih =>
    obtain ⟨k1, v1⟩ := e
    have hnotm : k1 ∉ tl.map Prod.fst := by
      simpa using (List.nodup_cons.mp h).1
    have htl : (tl.map Prod.fst).Nodup := (List.nodup_cons.mp h).2
    by_cases hk : k1 = k
    · subst hk
      have hne : ∀ e ∈ tl, e.1 ≠ k1 := by
        intro x hx hcon
        exact hnotm (by simpa [hcon] using List.mem_map_of_mem Prod.fst hx)
      rw [List.foldl_cons, dget_foldl_mergeStep_of_not_mem _ _ _ hne]
      simp only [foundEntry, dget, if_pos rfl]
      cases hv : v1 with
      | obj vkvs =>
        simp only [mergeStep, hv, entryFound]
        by_cases hf : is_found (valueEntry vkvs)
        · simp [hf, dget_dset_self, Option.or]
        · simp [hf, Option.or]
      | null => simp [mergeStep, entryFound, Option.or]
      | bool b' => simp [mergeStep, entryFound, Option.or]
      | num n => simp [mergeStep, entryFound, Option.or]
      | numF s => simp [mergeStep, entryFound, Option.or]
      | str s => simp [mergeStep, entryFound, Option.or]
      | arr xs => simp [mergeStep, entryFound, Option.or]
    · rw [List.foldl_cons, ih _ htl]
      have hb : dget (mergeStep b (k1, v1)) k = dget b k := by
        cases hv : v1 with
        | obj vkvs =>
          simp only [mergeStep, hv]
          by_cases hf : is_found (valueEntry vkvs)
          · simp [hf, dget_dset_ne _ _ _ _ hk]
          · simp [hf]
        | null => simp [mergeStep]
        | bool b' => simp [mergeStep]
        | num n => simp [mergeStep]
        | numF s => simp [mergeStep]
        | str s => simp [mergeStep]
        | arr xs => simp [mergeStep]
      rw [hb]
      simp only [foundEntry, dget, if_neg hk]

theorem dget_merge_extractions (base : JDict) (update : JVal) (k : String)
    (h : ∀ kvs, update = JVal.obj kvs → (kvs.map Prod.fst).Nodup) :
    dget (merge_extractions base update) k =
      (foundEntry update k).or (dget base k) := by
  cases update with
  | obj kvs =>
    rw [merge_extractions_obj, dget_foldl_mergeStep _ _ _ (h kvs rfl)]
  | null => simp [merge_extractions, foundEntry, Option.or]
  | bool b' => simp [merge_extractions, foundEntry, Option.or]
  | num n => simp [merge_extractions, foundEntry, Option.or]
  | numF s => simp [merge_extractions, foundEntry, Option.or]
  | str s => simp [merge_extractions, foundEntry, Option.or]
  | arr xs => simp [merge_extractions, foundEntry, Option.or]

/-- C2: `merge_extractions` copies a key from the update into the base
iff the update's value for that key is dict-shaped and its `"value"`
entry is found; a copied entry unconditionally overwrites the base
entry; non-dict-shaped or not-found update entries leave the base entry
(including a prior finding) unchanged, and a non-dict update leaves the
base untouched entirely. -/
theorem merge_extractions_copies_iff_found :
    (∀ (base kvs : JDict) (k : String), (kvs.map Prod.fst).Nodup →
      dget (merge_extractions base (JVal.obj kvs)) k =
        match dget kvs k with
        | some (JVal.obj vkvs) =>
          if is_found (valueEntry vkvs) then some (JVal.obj vkvs) else dget base k
        | _ => dget base k)
    ∧ (∀ (base : JDict) (u : JVal), isObjB u = false → merge_extractions base u = base) := by
  constructor
  · intro base kvs k h
    rw [merge_extractions_obj, dget_foldl_mergeStep _ _ _ h]
    rcases hd : dget kvs k with _ | v
    · simp [foundEntry, hd, Option.or]
    · cases v with
      | obj vkvs =>
        by_cases hf : is_found (valueEntry vkvs)
        · simp [foundEntry, hd, entryFound, hf, Option.or]
        · simp [foundEntry, hd, entryFound, hf, Option.or]
      | null => simp [foundEntry, hd, entryFound, Option.or]
      | bool b' => simp [foundEntry, hd, entryFound, Option.or]
      | num n => simp [foundEntry, hd, entryFound, Option.or]
      | numF s => simp [foundEntry, hd, entryFound, Option.or]
      | str s => simp [foundEntry, hd, entryFound, Option.or]
      | arr xs => simp [foundEntry, hd, entryFound, Option.or]
  · intro base u h
    cases u <;> simp_all [merge_extractions, isObjB]

/-- Witness for C2: a not-found update entry does not erase the prior
finding `{"value": "X"}` for key `f1`. -/
theorem merge_extractions_copies_iff_found_witness :
    dget (merge_extractions [("f1", JVal.obj [("value", JVal.str "X")])]
        (JVal.obj [("f1", JVal.obj [("value", JVal.str "not found")])])) "f1" =
      some (JVal.obj [("value", JVal.str "X")]) := by
  have h := merge_extractions_copies_iff_found.1
    [("f1", JVal.obj [("value", JVal.str "X")])]
    [("f1", JVal.obj [("value", JVal.str "not found")])] "f1" (by simp)
  exact h.trans (by rfl)

/-- C4: the complete case analysis of `is_found`: `None` is not found; a
string is not found iff it strips/lowers to `""` or `"not found"`; a
list is not found iff empty; a dict is found iff some stringified value
strips/lowers to neither `""` nor `"not found"`; every other value
(booleans, numbers) is found; including the three concrete examples. -/
theorem is_found_case_analysis :
    is_found JVal.null = false
    ∧ (∀ s : String, (is_found (JVal.str s) = false ↔
        (pyLower (pyStrip s) = "" ∨ pyLower (pyStrip s) = "not found")))
    ∧ (∀ xs : List JVal, (is_found (JVal.arr xs) = false ↔ xs = []))
    ∧ (∀ kvs : JDict, (is_found (JVal.obj kvs) = true ↔
        ∃ kv ∈ kvs, pyLower (pyStrip (pyStr kv.2)) ≠ "" ∧
          pyLower (pyStrip (pyStr kv.2)) ≠ "not found"))
    ∧ (∀ b, is_found (JVal.bool b) = true)
    ∧ (∀ n, is_found (JVal.num n) = true)
    ∧ (∀ s, is_found (JVal.numF s) = true)
    ∧ is_found (JVal.str "  ") = false
    ∧ is_found (JVal.arr [JVal.str "x"]) = true
    ∧ is_found (JVal.obj [("email", JVal.str "not found"),
        ("telephone", JVal.str "555")]) = true := by
  refine ⟨rfl, ?_, ?_, ?_, fun b => rfl, fun n => rfl, fun s => rfl, ?_, rfl, ?_⟩
  · intro s
    simp [is_found, foundStrTest]
    tauto
  · intro xs
    cases xs <;> simp [is_found]
  · intro kvs
    simp [is_found, List.any_eq_true, foundStrTest]
  · rfl
  · simp [is_found, List.any_eq_true, foundStrTest, pyStr]
    decide

theorem getLast?_cons_or {α : Type} (a : α) (l : List α) :
    (a :: l).getLast? = l.getLast?.or (some a) := by
  rw [List.getLast?_cons]
  cases h : l.getLast? with
  | none => rfl
  | some b => rfl

theorem length_filterMap_eq_countP {α β : Type} (l : List α) (f : α → Option β) :
    (l.filterMap f).length = l.countP (fun x => (f x).isSome) := by
  induction l with
  | nil => rfl
  | cons a t ih => cases h : f a <;> simp [List.filterMap_cons, h, List.countP_cons, ih]

theorem perm_eq_of_length_le_one {α : Type} {l1 l2 : List α}
    (h : l1.Perm l2) (hlen : l1.length ≤ 1) : l1 = l2 := by
  match l1, hlen, h with
  | [], _, h => exact h.nil_eq
  | [a], _, h => exact (List.perm_singleton.mp h.symm).symm

/-- Folding `merge_extractions` over a list of updates: the value at key
`k` is the last found contribution among the updates, else the base's. -/
theorem dget_foldl_merge_extractions (us : List JVal) (b : JDict) (k : String)
    (h : ∀ u ∈ us, ∀ kvs, u = JVal.obj kvs → (kvs.map Prod.fst).Nodup) :
    dget (List.foldl merge_extractions b us) k =
      ((us.filterMap (fun u => foundEntry u k)).getLast?).or (dget b k) := by
  induction us generalizing b with
  | nil => simp
  | cons u tl ih =>
    have hu := h u (by simp)
    have htl : ∀ u ∈ tl, ∀ kvs, u = JVal.obj kvs → (kvs.map Prod.fst).Nodup :=
      fun x hx => h x (by simp [hx])
    rw [List.foldl_cons, ih _ htl, dget_merge_extractions _ _ _ hu]
    cases hf : foundEntry u k with
    | none => simp [List.filterMap_cons, hf]
    | some v =>
      simp only [List.filterMap_cons, hf, getLast?_cons_or, Option.or_assoc]

/-- C3 (counterexample): merge-fold order independence fails in general;
with chunk A found as "X" and chunk B found as "Y" for the same key, the
two dispatch orders give different merged values for `f1`. -/
theorem merge_fold_order_counterexample :
    dget (List.foldl merge_extractions ([] : JDict)
        [JVal.obj [("f1", JVal.obj [("value", JVal.str "X")])],
         JVal.obj [("f1", JVal.obj [("value", JVal.str "Y")])]]) "f1" ≠
      dget (List.foldl merge_extractions ([] : JDict)
        [JVal.obj [("f1", JVal.obj [("value", JVal.str "Y")])],
         JVal.obj [("f1", JVal.obj [("value", JVal.str "X")])]]) "f1" := by
  have e1 : dget (List.foldl merge_extractions ([] : JDict)
      [JVal.obj [("f1", JVal.obj [("value", JVal.str "X")])],
       JVal.obj [("f1", JVal.obj [("value", JVal.str "Y")])]]) "f1" =
      some (JVal.obj [("value", JVal.str "Y")]) := rfl
  have e2 : dget (List.foldl merge_extractions ([] : JDict)
      [JVal.obj [("f1", JVal.obj [("value", JVal.str "Y")])],
       JVal.obj [("f1", JVal.obj [("value", JVal.str "X")])]]) "f1" =
      some (JVal.obj [("value", JVal.str "X")]) := rfl
  rw [e1, e2]
  simp

/-- C3 (amended): folding `merge_extractions` over per-chunk parse
results is order independent at every key for which at most one chunk
contributes a found, dict-shaped record (each update object having
unique keys); the found-vs-not-found scenario of the claim satisfies
this, so either dispatch order retains `f1 = {value: "X"}`. Without that
uniqueness condition order independence fails
(`merge_fold_order_counterexample`). -/
theorem merge_fold_perm_of_unique_found (base : JDict)
    (updates1 updates2 : List JVal) (k : String)
    (hperm : updates1.Perm updates2)
    (hnodup : ∀ u ∈ updates1, ∀ kvs, u = JVal.obj kvs → (kvs.map Prod.fst).Nodup)
    (hcount : updates1.countP (fun u => (foundEntry u k).isSome) ≤ 1) :
    dget (List.foldl merge_extractions base updates1) k =
      dget (List.foldl merge_extractions base updates2) k := by
  have hnodup2 : ∀ u ∈ updates2, ∀ kvs, u = JVal.obj kvs → (kvs.map Prod.fst).Nodup :=
    fun u hu => hnodup u (hperm.mem_iff.mpr hu)
  rw [dget_foldl_merge_extractions _ _ _ hnodup,
      dget_foldl_merge_extractions _ _ _ hnodup2]
  have hfm : (updates1.filterMap (fun u => foundEntry u k)).Perm
      (updates2.filterMap (fun u => foundEntry u k)) :=
    hperm.filterMap _
  have hlen : (updates1.filterMap (fun u => foundEntry u k)).length ≤ 1 := by
    rw [length_filterMap_eq_countP]
    exact hcount
  rw [perm_eq_of_length_le_one hfm hlen]

/-- Witness for C3 (amended): the claim's scenario, chunk A returning
found "X" and chunk B returning "not found" for `f1`, merges to the same
result in either dispatch order, and that result keeps `value = "X"`. -/
theorem merge_fold_perm_of_unique_found_witness :
    dget (List.foldl merge_extractions ([] : JDict)
        [JVal.obj [("f1", JVal.obj [("value", JVal.str "X")])],
         JVal.obj [("f1", JVal.obj [("value", JVal.str "not found")])]]) "f1" =
      dget (List.foldl merge_extractions ([] : JDict)
        [JVal.obj [("f1", JVal.obj [("value", JVal.str "not found")])],
         JVal.obj [("f1", JVal.obj [("value", JVal.str "X")])]]) "f1"
    ∧ dget (List.foldl merge_extractions ([] : JDict)
        [JVal.obj [("f1", JVal.obj [("value", JVal.str "X")])],
         JVal.obj [("f1", JVal.obj [("value", JVal.str "not found")])]]) "f1" =
      some (JVal.obj [("value", JVal.str "X")]) := by
  constructor
  · apply merge_fold_perm_of_unique_found
    · exact List.Perm.swap _ _ _
    · intro u hu kvs he
      simp only [List.mem_cons, List.not_mem_nil, or_false] at hu
      rcases hu with rfl | rfl <;> (injection he with h2; subst h2; simp)
    · show List.countP _ _ ≤ 1
      rfl
  · rfl

/-- The opening-brace character, written by code point. -/
def lbrace : Char := Char.ofNat 123

/-- The closing-brace character, written by code point. -/
def rbrace : Char := Char.ofNat 125

/-- JSON whitespace accepted between tokens by `json.loads`. -/
def isJsonWs (c : Char) : Bool := c = ' ' || c = '\t' || c = '\n' || c = '\r'

/-- Skip leading JSON whitespace. -/
def skipWs : List Char → List Char
  | [] => []
  | c :: cs => if isJsonWs c then skipWs cs else c :: cs

/-- Value of a hexadecimal digit. -/
def hexVal (c : Char) : Option Nat :=
  if '0' ≤ c ∧ c ≤ '9' then some (c.toNat - 48)
  else if 'a' ≤ c ∧ c ≤ 'f' then some (c.toNat - 87)
  else if 'A' ≤ c ∧ c ≤ 'F' then some (c.toNat - 55)
  else none

/-- JSON single-character escapes. -/
def escChar (e : Char) : Option Char :=
  if e = '"' then some '"'
  else if e = '\\' then some '\\'
  else if e = '/' then some '/'
  else if e = 'b' then some (Char.ofNat 8)
  else if e = 'f' then some (Char.ofNat 12)
  else if e = 'n' then some '\n'
  else if e = 'r' then some '\r'
  else if e = 't' then some '\t'
  else none

/-- Parse the remainder of a JSON string literal (opening quote already
consumed): the decoded characters and the input after the closing quote.
Unescaped control characters are rejected, as `json.loads` does. -/
def parseStrChars : List Char → Option (List Char × List Char)
  | [] => none
  | c :: cs =>
    if c = '"' then some ([], cs)
    else if c = '\\' then
      match cs with
      | [] => none
      | e :: cs2 =>
        if e = 'u' then
          match cs2 with
          | h1 :: h2 :: h3 :: h4 :: cs3 =>
            match hexVal h1, hexVal h2, hexVal h3, hexVal h4 with
            | some a, some b, some c3, some d =>
              (parseStrChars cs3).map
                (fun r => (Char.ofNat (a * 4096 + b * 256 + c3 * 16 + d) :: r.1, r.2))
            | _, _, _, _ => none
          | _ => none
        else
          match escChar e with
          | some ec => (parseStrChars cs2).map (fun r => (ec :: r.1, r.2))
          | none => none
    else if c.toNat < 32 then none
    else (parseStrChars cs).map (fun r => (c :: r.1, r.2))

/-- Take the maximal run of leading decimal digits. -/
def takeDigits : List Char → List Char × List Char
  | [] => ([], [])
  | c :: cs =>
    if c.isDigit then
      let r := takeDigits cs
      (c :: r.1, r.2)
    else ([], c :: cs)

/-- Numeric value of a digit run. -/
def digitsToNat (ds : List Char) : Nat :=
  ds.foldl (fun a c => a * 10 + (c.toNat - 48)) 0

/-- Parse an optional JSON exponent part; `some ([], s)` when absent. -/
def parseExpPart (s : List Char) : Option (List Char × List Char) :=
  match s with
  | [] => some ([], [])
  | c :: r1 =>
    if c = 'e' ∨ c = 'E' then
      match r1 with
      | [] => none
      | c2 :: r2 =>
        if c2 = '+' ∨ c2 = '-' then
          match takeDigits r2 with
          | ([], _) => none
          | (es, rest) => some (c :: c2 :: es, rest)
        else
          match takeDigits r1 with
          | ([], _) => none
          | (es, rest) => some (c :: es, rest)
    else some ([], s)

/-- Parse the magnitude of a JSON number (after an optional sign):
whether it is an integer, its integer value, its lexeme, and the rest.
Leading zeros are rejected as in the strict JSON grammar. -/
def parseNumMag (s : List Char) : Option (Bool × Nat × List Char × List Char) :=
  match takeDigits s with
  | ([], _) => none
  | (ds, rest1) =>
    if 1 < ds.length ∧ ds.head? = some '0' then none
    else
      match rest1 with
      | '.' :: r2 =>
        (match takeDigits r2 with
         | ([], _) => none
         | (fs, rest2) =>
           (parseExpPart rest2).map
             (fun pr => (false, 0, ds ++ '.' :: (fs ++ pr.1), pr.2)))
      | _ =>
        (parseExpPart rest1).map
          (fun pr =>
            if pr.1 = [] then (true, digitsToNat ds, ds, pr.2)
            else (false, 0, ds ++ pr.1, pr.2))

/-- Parse a JSON number: integers become `JVal.num`, non-integer numbers
keep their lexeme as `JVal.numF` (Python would produce a float; no claim
inspects float values). -/
def parseNumber (s : List Char) : Option (JVal × List Char) :=
  match s with
  | '-' :: s1 =>
    (parseNumMag s1).map
      (fun r =>
        (if r.1 then JVal.num (-(r.2.1 : Int))
         else JVal.numF (String.mk ('-' :: r.2.2.1)), r.2.2.2))
  | _ =>
    (parseNumMag s).map
      (fun r =>
        (if r.1 then JVal.num (r.2.1 : Int)
         else JVal.numF (String.mk r.2.2.1), r.2.2.2))

/-- Parser mode: a value, the members of an object being accumulated, or
the items of an array being accumulated. A single fuel-indexed function
keeps the recursion structural so that the kernel can evaluate it. -/
inductive PMode where
  | val : PMode
  | members : JDict → PMode
  | items : List JVal → PMode

/-- The core JSON parser, modelling Python `json.loads` (strict JSON
grammar; object literals collapse duplicate keys with last-wins via
`dset`, as Python dict construction does; `NaN`/`Infinity` extensions
are not modelled). Returns the parsed value and the unconsumed input. -/
def parseCore : Nat → PMode → List Char → Option (JVal × List Char)
  | 0, _, _ => none
  | fuel + 1, PMode.val, s =>
    match skipWs s with
    | [] => none
    | c :: cs =>
      if c = lbrace then
        match skipWs cs with
        | [] => none
        | c2 :: cs2 =>
          if c2 = rbrace then some (JVal.obj [], cs2)
          else parseCore fuel (PMode.members []) cs
      else if c = '[' then
        match skipWs cs with
        | [] => none
        | c2 :: cs2 =>
          if c2 = ']' then some (JVal.arr [], cs2)
          else parseCore fuel (PMode.items []) cs
      else if c = '"' then
        match parseStrChars cs with
        | some (chars, rest) => some (JVal.str (String.mk chars), rest)
        | none => none
      else if c = 't' then
        match cs with
        | 'r' :: 'u' :: 'e' :: r => some (JVal.bool true, r)
        | _ => none
      else if c = 'f' then
        match cs with
        | 'a' :: 'l' :: 's' :: 'e' :: r => some (JVal.bool false, r)
        | _ => none
      else if c = 'n' then
        match cs with
        | 'u' :: 'l' :: 'l' :: r => some (JVal.null, r)
        | _ => none
      else if c = '-' || c.isDigit then parseNumber (c :: cs)
      else none
  | fuel + 1, PMode.members acc, s =>
    match skipWs s with
    | [] => none
    | c :: cs =>
      if c = '"' then
        match parseStrChars cs with
        | some (kchars, rest1) =>
          match skipWs rest1 with
          | ':' :: rest2 =>
            (match parseCore fuel PMode.val rest2 with
             | some (v, rest3) =>
               match skipWs rest3 with
               | [] => none
               | c2 :: rest4 =>
                 if c2 = ',' then
                   parseCore fuel (PMode.members (dset acc (String.mk kchars) v)) rest4
                 else if c2 = rbrace then
                   some (JVal.obj (dset acc (String.mk kchars) v), rest4)
                 else none
             | none => none)
          | _ => none
        | none => none
      else none
  | fuel + 1, PMode.items acc, s =>
    match parseCore fuel PMode.val s with
    | some (v, rest) =>
      (match skipWs rest with
       | ',' :: rest2 => parseCore fuel (PMode.items (acc ++ [v])) rest2
       | ']' :: rest2 => some (JVal.arr (acc ++ [v]), rest2)
       | _ => none)
    | none => none

/-- `json.loads`: parse one JSON document with optional surrounding
whitespace; anything else trailing is an error (`none`). -/
def parseJson (s : List Char) : Option JVal :=
  match parseCore (2 * s.length + 4) PMode.val s with
  | some (v, rest) => if skipWs rest = [] then some v else none
  | none => none

/-- Index of the first occurrence of a character (`str.find`). -/
def strFindIdx : List Char → Char → Option Nat
  | [], _ => none
  | a :: t, c => if a = c then some 0 else (strFindIdx t c).map (· + 1)

/-- Index of the last occurrence of a character (`str.rfind`). -/
def strRFindIdx (l : List Char) (c : Char) : Option Nat :=
  match strFindIdx l.reverse c with
  | some i => some (l.length - 1 - i)
  | none => none

/-- `parse_json_content` from `src/core/utils.py` lines 52-65: strict
parse first; on failure parse the substring from the first brace to the
last brace; on failure again (or no such substring) return the empty
dict. -/
def parse_json_content (content : String) : JVal :=
  match parseJson content.data with
  | some v => v
  | none =>
    match strFindIdx content.data lbrace, strRFindIdx content.data rbrace with
    | some s, some e =>
      if s < e then
        match parseJson ((content.data.drop s).take (e + 1 - s)) with
        | some v => v
        | none => JVal.obj []
      else JVal.obj []
    | _, _ => JVal.obj []

theorem skipWs_cons_of_not_ws (c : Char) (cs : List Char) (h : isJsonWs c = false) :
    skipWs (c :: cs) = c :: cs := by
  simp [skipWs, h]

theorem parseCore_members_obj (fuel : Nat) :
    ∀ acc s v rest, parseCore fuel (PMode.members acc) s = some (v, rest) →
      ∃ kvs, v = JVal.obj kvs := by
  induction fuel with
  | zero => intro acc s v rest h; exact absurd h (by simp [parseCore])
  | succ f ih =>
    intro acc s v rest h
    simp only [parseCore] at h
    repeat' split at h
    all_goals simp_all
    · exact ih _ _ _ _ h
    · exact ⟨_, h.1.symm⟩

theorem parseCore_val_lbrace_obj (fuel : Nat) (cs : List Char) (v : JVal)
    (rest : List Char)
    (h : parseCore fuel PMode.val (lbrace :: cs) = some (v, rest)) :
    ∃ kvs, v = JVal.obj kvs := by
  cases fuel with
  | zero => exact absurd h (by simp [parseCore])
  | succ f =>
    have hstep : parseCore (f + 1) PMode.val (lbrace :: cs) =
        (match skipWs cs with
         | [] => none
         | c2 :: cs2 =>
           if c2 = rbrace then some (JVal.obj [], cs2)
           else parseCore f (PMode.members []) cs) := rfl
    rw [hstep] at h
    rcases hcs : skipWs cs with _ | ⟨c2, cs2⟩
    · simp only [hcs] at h
      exact Option.noConfusion h
    · simp only [hcs] at h
      split at h
      · simp only [Option.some.injEq, Prod.mk.injEq] at h
        exact ⟨_, h.1.symm⟩
      · exact parseCore_members_obj f _ _ _ _ h

theorem parseJson_cons_lbrace_obj (t : List Char) (v : JVal)
    (h : parseJson (lbrace :: t) = some v) : ∃ kvs, v = JVal.obj kvs := by
  unfold parseJson at h
  split at h
  next v' rest heq =>
    split at h
    · simp only [Option.some.injEq] at h
      subst h
      exact parseCore_val_lbrace_obj _ _ _ _ heq
    · exact absurd h (by simp)
  next heq => exact absurd h (by simp)

theorem strFindIdx_drop (l : List Char) (c : Char) (i : Nat)
    (h : strFindIdx l c = some i) : ∃ t, l.drop i = c :: t := by
  induction l generalizing i with
  | nil => simp [strFindIdx] at h
  | cons a tl ih =>
    by_cases hac : a = c
    · simp [strFindIdx, hac] at h
      subst h
      exact ⟨tl, by simp [hac]⟩
    · simp only [strFindIdx, hac, if_false, Option.map_eq_some'] at h
      obtain ⟨j, hj, rfl⟩ := h
      obtain ⟨t, ht⟩ := ih j hj
      exact ⟨t, by simpa using ht⟩

/-- C1 (counterexample): `parse_json_content` does not always return a
mapping: on input `"[1]"` the strict parse succeeds with a JSON list,
which is returned as is. -/
theorem parse_json_content_not_always_mapping :
    parse_json_content "[1]" = JVal.arr [JVal.num 1]
    ∧ isObjB (parse_json_content "[1]") = false := ⟨rfl, rfl⟩

/-- C1 (amended): `parse_json_content` first attempts a strict JSON
parse and returns its value on success (which may be a non-mapping such
as a list or number); if the strict parse fails, it parses the substring
from the first brace to the last brace, and the result is then always a
mapping — the parsed object on success, the empty mapping when the
fallback fails or no proper brace substring exists. It never raises (it
is a total function). The claim's concrete scenario holds:
`"Sure! {"a":{"value":1}} thanks"` parses to `{"a": {"value": 1}}` via
the braces-substring fallback. -/
theorem parse_json_content_contract :
    (∀ (content : String) (v : JVal), parseJson content.data = some v →
      parse_json_content content = v)
    ∧ (∀ content : String, parseJson content.data = none →
      isObjB (parse_json_content content) = true)
    ∧ parse_json_content "Sure! \x7b\"a\":\x7b\"value\":1\x7d\x7d thanks" =
        JVal.obj [("a", JVal.obj [("value", JVal.num 1)])] := by
  refine ⟨?_, ?_, rfl⟩
  · intro content v hp
    simp [parse_json_content, hp]
  · intro content hp
    simp only [parse_json_content, hp]
    rcases hf : strFindIdx content.data lbrace with _ | s
    · rfl
    rcases hr : strRFindIdx content.data rbrace with _ | e
    · rfl
    simp only [hf, hr]
    by_cases hlt : s < e
    · rw [if_pos hlt]
      obtain ⟨t, ht⟩ := strFindIdx_drop _ _ _ hf
      have he : e + 1 - s = (e - s) + 1 := by omega
      have hslice : (content.data.drop s).take (e + 1 - s) =
          lbrace :: t.take (e - s) := by
        rw [ht, he, List.take_succ_cons]
      rw [hslice]
      rcases hj : parseJson (lbrace :: t.take (e - s)) with _ | v
      · rfl
      · obtain ⟨kvs, rfl⟩ := parseJson_cons_lbrace_obj _ _ hj
        rfl
    · rw [if_neg hlt]
      rfl

/-- Witness for C1 (amended): a strict-parse failure with no braces at
all yields the empty mapping, a mapping as stated. -/
theorem parse_json_content_contract_witness :
    parseJson ("no json here".data) = none
    ∧ isObjB (parse_json_content "no json here") = true :=
  ⟨rfl, parse_json_content_contract.2.1 "no json here" rfl⟩

/-- Python `path.split(".")`: maximal chunks between dots, keeping empty
chunks, never returning an empty list. -/
def splitDot : List Char → List (List Char)
  | [] => [[]]
  | c :: t =>
    if c = '.' then [] :: splitDot t
    else
      match splitDot t with
      | [] => [[c]]
      | h :: r => (c :: h) :: r

/-- `path.split(".")` on a `String`. -/
def splitDotS (path : String) : List String := (splitDot path.data).map String.mk

/-- The `source` update inside `set_path`: an existing dict `source`
gets its `page`/`excerpt` set in place, anything else is replaced by a
fresh `{page, excerpt}` dict. -/
def sourceMerge (leaf1 : JDict) (p e : JVal) : JDict :=
  match dget leaf1 "source" with
  | some (JVal.obj src) =>
    dset leaf1 "source" (JVal.obj (dset (dset src "page" p) "excerpt" e))
  | _ => dset leaf1 "source" (JVal.obj [("page", p), ("excerpt", e)])

/-- The leaf update of `set_path` (`src/core/utils.py` lines 72-82):
an existing dict leaf is updated in place (`value` set, `source`
merged), anything else is replaced by a fresh
`{value, source: {page, excerpt}}` record. -/
def leafWrite (d : JDict) (last : String) (v p e : JVal) : JDict :=
  match dget d last with
  | some (JVal.obj leaf) =>
    dset d last (JVal.obj (sourceMerge (dset leaf "value" v) p e))
  | _ => dset d last (JVal.obj [("value", v), ("source", JVal.obj [("page", p), ("excerpt", e)])])

/-- The walk of `set_path` over the split path: `setdefault` into dicts,
creating missing intermediates; `none` models the `AttributeError`
Python raises when a non-dict is traversed. -/
def setParts : JDict → List String → JVal → JVal → JVal → Option JDict
  | d, [k], v, p, e => some (leafWrite d k v p e)
  | d, k :: rest, v, p, e =>
    match dget d k with
    | some (JVal.obj c) => (setParts c rest v p e).map (fun c' => dset d k (JVal.obj c'))
    | some _ => none
    | none => (setParts [] rest v p e).map (fun c' => dset d k (JVal.obj c'))
  | _, [], _, _, _ => none

/-- `set_path` from `src/core/utils.py` lines 67-82. -/
def set_path (root : JDict) (path : String) (v p e : JVal) : Option JDict :=
  setParts root (splitDotS path) v p e

/-- Dot-path reader used to observe a filled template: walk dicts along
the split path and return the value at the leaf. -/
def getParts : JDict → List String → Option JVal
  | d, [k] => dget d k
  | d, k :: rest =>
    match dget d k with
    | some (JVal.obj c) => getParts c rest
    | _ => none
  | _, [] => none

/-- Dot-path reader on a string path. -/
def get_path (root : JDict) (path : String) : Option JVal :=
  getParts root (splitDotS path)

/-- The `value` computed by the fill loop (`src/cli_gemini.py` lines
130-135, `src/cli_mistral.py` lines 67-72): `payload.get("value", "not
found")` for a dict payload (a missing payload defaults to the empty
dict), `"not found"` for a non-dict payload. -/
def fillValue (llm : JDict) (path : String) : JVal :=
  match dget llm path with
  | some (JVal.obj pk) => (dget pk "value").getD (JVal.str "not found")
  | some _ => JVal.str "not found"
  | none => JVal.str "not found"

/-- The `page` computed by the fill loop: `payload.get("page")` for a
dict payload (so `None` when absent), `None` for a non-dict payload. -/
def fillPage (llm : JDict) (path : String) : JVal :=
  match dget llm path with
  | some (JVal.obj pk) => (dget pk "page").getD JVal.null
  | some _ => JVal.null
  | none => JVal.null

/-- The `excerpt` computed by the fill loop: `payload.get("excerpt")`
for a dict payload (so `None` when absent, including for a missing
payload which defaults to `{}`), but the literal empty string for a
present non-dict payload. -/
def fillExcerpt (llm : JDict) (path : String) : JVal :=
  match dget llm path with
  | some (JVal.obj pk) => (dget pk "excerpt").getD JVal.null
  | some _ => JVal.str ""
  | none => JVal.null

/-- The fill loop of both CLIs: one `set_path` per field spec, in
order. -/
def fill_fields : JDict → JDict → List (String × String × JVal) → Option JDict
  | t, _, [] => some t
  | t, llm, (path, _, _) :: rest =>
    match set_path t path (fillValue llm path) (fillPage llm path) (fillExcerpt llm path) with
    | some t' => fill_fields t' llm rest
    | none => none

/-- Python `s.startswith(pre)` on character lists. -/
def startsWithL : List Char → List Char → Bool
  | _, [] => true
  | [], _ :: _ => false
  | c :: cs, p :: ps => c = p && startsWithL cs ps

/-- Python `key in d` for dicts. -/
def hasKey (d : JDict) (k : String) : Bool := (dget d k).isSome

/-- `f"{prefix}.{k}" if prefix else k` from `collect_fields`. -/
def joinPath (pre k : String) : String := if pre = "" then k else pre ++ "." ++ k

/-- `collect_fields` from `src/core/utils.py` lines 25-35: walk the
template, skip paths starting with `"meta."`, collect `(path, path,
expected_type)` for dict nodes carrying `"expected_type"`, recurse into
other dict nodes. -/
def collect_fields : JDict → String → List (String × String × JVal)
  | [], _ => []
  | (k, v) :: rest, pre =>
    (if startsWithL (joinPath pre k).data "meta.".data then []
     else
       match v with
       | JVal.obj vkvs =>
         if hasKey vkvs "expected_type" then
           [(joinPath pre k, joinPath pre k, (dget vkvs "expected_type").getD (JVal.str ""))]
         else collect_fields vkvs (joinPath pre k)
       | _ => [])
    ++ collect_fields rest pre

/-- A well-formed template key: nonempty and dot-free. -/
def keyOk (k : String) : Bool := !(k = "") && !(k.data.contains '.')

/-- A well-formed template dict: keys nonempty, dot-free and unique at
every level (as in the shipped JSON template assets). -/
def wfDict : List (String × JVal) → Bool
  | [] => true
  | (k, v) :: rest =>
    keyOk k && !((rest.map Prod.fst).contains k) &&
    (match v with
     | JVal.obj vkvs => wfDict vkvs
     | _ => true) &&
    wfDict rest

/-- Prefix order on split paths (`a` is a prefix of `b`, equality
included). -/
def partsLe (a b : List String) : Prop := ∃ t, b = a ++ t

theorem partsLe_self (a : List String) : partsLe a a := ⟨[], by simp⟩

theorem partsLe_cons_ext (a : List String) (x : String) (t : List String) :
    partsLe (a ++ [x]) (a ++ x :: t) := ⟨t, by simp⟩

theorem eq_of_partsLe_append_cons (x : List String) (k1 k2 : String)
    (c1 c2 : List String) (h : partsLe (x ++ k1 :: c1) (x ++ k2 :: c2)) :
    k1 = k2 := by
  obtain ⟨t, ht⟩ := h
  rw [List.append_assoc] at ht
  have h2 := List.append_cancel_left ht
  exact (List.cons.injEq _ _ _ _ ▸ h2).1.symm

/-- Whether the walk of `set_path` succeeds in `d` along `parts`: every
existing node traversed before the leaf is a dict. -/
def compatParts : JDict → List String → Bool
  | _, [] => true
  | _, [_] => true
  | d, k :: rest =>
    match dget d k with
    | none => true
    | some (JVal.obj c) => compatParts c rest
    | some _ => false

theorem compatParts_nil (q : List String) : compatParts [] q = true := by
  match q with
  | [] => rfl
  | [x] => rfl
  | x :: y :: r => rfl

theorem getParts_nil (q : List String) : getParts [] q = none := by
  match q with
  | [] => rfl
  | [x] => rfl
  | x :: y :: r => rfl

/-- The record observed at a path: a `{value, source: {page, excerpt}}`
dict holding exactly the written value, page and excerpt. -/
def obsParts (d : JDict) (parts : List String) (v p e : JVal) : Prop :=
  ∃ record src,
    getParts d parts = some (JVal.obj record) ∧
    dget record "value" = some v ∧
    dget record "source" = some (JVal.obj src) ∧
    dget src "page" = some p ∧
    dget src "excerpt" = some e

theorem sourceMerge_obs (leaf1 : JDict) (p e : JVal) :
    ∃ src,
      dget (sourceMerge leaf1 p e) "source" = some (JVal.obj src) ∧
      dget src "page" = some p ∧
      dget src "excerpt" = some e ∧
      dget (sourceMerge leaf1 p e) "value" = dget leaf1 "value" := by
  rcases hsrc : dget leaf1 "source" with _ | val
  · refine ⟨[("page", p), ("excerpt", e)], ?_, by simp [dget], by simp [dget], ?_⟩
    · simp only [sourceMerge, hsrc]
      exact dget_dset_self _ _ _
    · simp only [sourceMerge, hsrc]
      exact dget_dset_ne _ _ _ _ (by decide)
  · cases val with
    | obj src0 =>
      refine ⟨dset (dset src0 "page" p) "excerpt" e, ?_, ?_, ?_, ?_⟩
      · simp only [sourceMerge, hsrc]
        exact dget_dset_self _ _ _
      · rw [dget_dset_ne _ _ _ _ (by decide)]
        exact dget_dset_self _ _ _
      · exact dget_dset_self _ _ _
      · simp only [sourceMerge, hsrc]
        exact dget_dset_ne _ _ _ _ (by decide)
    | null =>
      refine ⟨[("page", p), ("excerpt", e)], ?_, by simp [dget], by simp [dget], ?_⟩
      · simp only [sourceMerge, hsrc]
        exact dget_dset_self _ _ _
      · simp only [sourceMerge, hsrc]
        exact dget_dset_ne _ _ _ _ (by decide)
    | bool b =>
      refine ⟨[("page", p), ("excerpt", e)], ?_, by simp [dget], by simp [dget], ?_⟩
      · simp only [sourceMerge, hsrc]
        exact dget_dset_self _ _ _
      · simp only [sourceMerge, hsrc]
        exact dget_dset_ne _ _ _ _ (by decide)
    | num n =>
      refine ⟨[("page", p), ("excerpt", e)], ?_, by simp [dget], by simp [dget], ?_⟩
      · simp only [sourceMerge, hsrc]
        exact dget_dset_self _ _ _
      · simp only [sourceMerge, hsrc]
        exact dget_dset_ne _ _ _ _ (by decide)
    | numF s =>
      refine ⟨[("page", p), ("excerpt", e)], ?_, by simp [dget], by simp [dget], ?_⟩
      · simp only [sourceMerge, hsrc]
        exact dget_dset_self _ _ _
      · simp only [sourceMerge, hsrc]
        exact dget_dset_ne _ _ _ _ (by decide)
    | str s =>
      refine ⟨[("page", p), ("excerpt", e)], ?_, by simp [dget], by simp [dget], ?_⟩
      · simp only [sourceMerge, hsrc]
        exact dget_dset_self _ _ _
      · simp only [sourceMerge, hsrc]
        exact dget_dset_ne _ _ _ _ (by decide)
    | arr xs =>
      refine ⟨[("page", p), ("excerpt", e)], ?_, by simp [dget], by simp [dget], ?_⟩
      · simp only [sourceMerge, hsrc]
        exact dget_dset_self _ _ _
      · simp only [sourceMerge, hsrc]
        exact dget_dset_ne _ _ _ _ (by decide)

theorem leafWrite_dget_self (d : JDict) (k : String) (v p e : JVal) :
    ∃ record src,
      dget (leafWrite d k v p e) k = some (JVal.obj record) ∧
      dget record "value" = some v ∧
      dget record "source" = some (JVal.obj src) ∧
      dget src "page" = some p ∧
      dget src "excerpt" = some e := by
  rcases hd : dget d k with _ | val
  · refine ⟨[("value", v), ("source", JVal.obj [("page", p), ("excerpt", e)])],
      [("page", p), ("excerpt", e)], ?_, by simp [dget], by simp [dget],
      by simp [dget], by simp [dget]⟩
    simp only [leafWrite, hd]
    exact dget_dset_self _ _ _
  · cases val with
    | obj leaf =>
      obtain ⟨src, h1, h2, h3, h4⟩ := sourceMerge_obs (dset leaf "value" v) p e
      refine ⟨sourceMerge (dset leaf "value" v) p e, src, ?_, ?_, h1, h2, h3⟩
      · simp only [leafWrite, hd]
        exact dget_dset_self _ _ _
      · rw [h4]
        exact dget_dset_self _ _ _
    | null =>
      refine ⟨[("value", v), ("source", JVal.obj [("page", p), ("excerpt", e)])],
        [("page", p), ("excerpt", e)], ?_, by simp [dget], by simp [dget],
        by simp [dget], by simp [dget]⟩
      simp only [leafWrite, hd]
      exact dget_dset_self _ _ _
    | bool b =>
      refine ⟨[("value", v), ("source", JVal.obj [("page", p), ("excerpt", e)])],
        [("page", p), ("excerpt", e)], ?_, by simp [dget], by simp [dget],
        by simp [dget], by simp [dget]⟩
      simp only [leafWrite, hd]
      exact dget_dset_self _ _ _
    | num n =>
      refine ⟨[("value", v), ("source", JVal.obj [("page", p), ("excerpt", e)])],
        [("page", p), ("excerpt", e)], ?_, by simp [dget], by simp [dget],
        by simp [dget], by simp [dget]⟩
      simp only [leafWrite, hd]
      exact dget_dset_self _ _ _
    | numF s =>
      refine ⟨[("value", v), ("source", JVal.obj [("page", p), ("excerpt", e)])],
        [("page", p), ("excerpt", e)], ?_, by simp [dget], by simp [dget],
        by simp [dget], by simp [dget]⟩
      simp only [leafWrite, hd]
      exact dget_dset_self _ _ _
    | str s =>
      refine ⟨[("value", v), ("source", JVal.obj [("page", p), ("excerpt", e)])],
        [("page", p), ("excerpt", e)], ?_, by simp [dget], by simp [dget],
        by simp [dget], by simp [dget]⟩
      simp only [leafWrite, hd]
      exact dget_dset_self _ _ _
    | arr xs =>
      refine ⟨[("value", v), ("source", JVal.obj [("page", p), ("excerpt", e)])],
        [("page", p), ("excerpt", e)], ?_, by simp [dget], by simp [dget],
        by simp [dget], by simp [dget]⟩
      simp only [leafWrite, hd]
      exact dget_dset_self _ _ _

theorem leafWrite_dget_ne (d : JDict) (k x : String) (v p e : JVal)
    (h : k ≠ x) : dget (leafWrite d k v p e) x = dget d x := by
  rcases hd : dget d k with _ | val
  · simp only [leafWrite, hd]
    exact dget_dset_ne _ _ _ _ h
  · cases val <;> simp only [leafWrite, hd] <;> exact dget_dset_ne _ _ _ _ h

theorem setParts_obs : ∀ (parts : List String) (d : JDict) (v p e : JVal),
    parts ≠ [] → compatParts d parts = true →
    ∃ d', setParts d parts v p e = some d' ∧ obsParts d' parts v p e := by
  intro parts
  induction parts with
  | nil => intro d v p e h _; exact absurd rfl h
  | cons k rest ih =>
    intro d v p e _ hcompat
    cases rest with
    | nil =>
      refine ⟨leafWrite d k v p e, rfl, ?_⟩
      obtain ⟨record, src, h1, h2, h3, h4, h5⟩ := leafWrite_dget_self d k v p e
      exact ⟨record, src, h1, h2, h3, h4, h5⟩
    | cons r1 rs =>
      rcases hd : dget d k with _ | val
      · obtain ⟨c', hset, hobs⟩ := ih [] v p e (by simp) (compatParts_nil _)
        refine ⟨dset d k (JVal.obj c'), ?_, ?_⟩
        · simp only [setParts, hd, hset, Option.map_some']
        · obtain ⟨record, src, h1, h2, h3, h4, h5⟩ := hobs
          refine ⟨record, src, ?_, h2, h3, h4, h5⟩
          simp only [getParts, dget_dset_self]
          exact h1
      · cases val with
        | obj c =>
          have hcc : compatParts c (r1 :: rs) = true := by
            simpa [compatParts, hd] using hcompat
          obtain ⟨c', hset, hobs⟩ := ih c v p e (by simp) hcc
          refine ⟨dset d k (JVal.obj c'), ?_, ?_⟩
          · simp only [setParts, hd, hset, Option.map_some']
          · obtain ⟨record, src, h1, h2, h3, h4, h5⟩ := hobs
            refine ⟨record, src, ?_, h2, h3, h4, h5⟩
            simp only [getParts, dget_dset_self]
            exact h1
        | null => simp [compatParts, hd] at hcompat
        | bool b => simp [compatParts, hd] at hcompat
        | num n => simp [compatParts, hd] at hcompat
        | numF s => simp [compatParts, hd] at hcompat
        | str s => simp [compatParts, hd] at hcompat
        | arr xs => simp [compatParts, hd] at hcompat

theorem setParts_some_cons (d : JDict) (k r1 : String) (rs : List String)
    (v p e : JVal) (d' : JDict)
    (h : setParts d (k :: r1 :: rs) v p e = some d') :
    ∃ c c', setParts c (r1 :: rs) v p e = some c' ∧
      d' = dset d k (JVal.obj c') ∧
      ((dget d k = some (JVal.obj c)) ∨ (dget d k = none ∧ c = [])) := by
  rcases hd : dget d k with _ | val
  · simp only [setParts, hd] at h
    rcases hs : setParts [] (r1 :: rs) v p e with _ | c'
    · rw [hs] at h; exact Option.noConfusion h
    · rw [hs] at h
      simp only [Option.map_some', Option.some.injEq] at h
      exact ⟨[], c', hs, h.symm, Or.inr ⟨rfl, rfl⟩⟩
  · cases val with
    | obj c =>
      simp only [setParts, hd] at h
      rcases hs : setParts c (r1 :: rs) v p e with _ | c'
      · rw [hs] at h; exact Option.noConfusion h
      · rw [hs] at h
        simp only [Option.map_some', Option.some.injEq] at h
        exact ⟨c, c', hs, h.symm, Or.inl rfl⟩
    | null => simp [setParts, hd] at h
    | bool b => simp [setParts, hd] at h
    | num n => simp [setParts, hd] at h
    | numF s => simp [setParts, hd] at h
    | str s => simp [setParts, hd] at h
    | arr xs => simp [setParts, hd] at h

theorem getParts_cons_cons (d : JDict) (x r1 : String) (rs : List String) :
    getParts d (x :: r1 :: rs) =
      match dget d x with
      | some (JVal.obj c) => getParts c (r1 :: rs)
      | _ => none := rfl

theorem compatParts_cons_cons (d : JDict) (x r1 : String) (rs : List String) :
    compatParts d (x :: r1 :: rs) =
      match dget d x with
      | none => true
      | some (JVal.obj c) => compatParts c (r1 :: rs)
      | some _ => false := rfl

/-- Writing along one path leaves the value observed along any other
path untouched, provided neither path is a prefix of the other. -/
theorem setParts_getParts_other :
    ∀ (q' : List String) (d d' : JDict) (q : List String) (v p e : JVal),
    ¬ partsLe q q' → ¬ partsLe q' q →
    setParts d q' v p e = some d' →
    getParts d' q = getParts d q := by
  intro q'
  induction q' with
  | nil => intro d d' q v p e _ _ hset; exact absurd hset (by simp [setParts])
  | cons k' rest' ih =>
    intro d d' q v p e hq hq' hset
    cases rest' with
    | nil =>
      simp only [setParts, Option.some.injEq] at hset
      subst hset
      match q with
      | [] => rfl
      | [x] =>
        have hx : x ≠ k' := by
          intro hcon
          exact hq ⟨[], by simp [hcon]⟩
        exact leafWrite_dget_ne _ _ _ _ _ _ (fun hc => hx hc.symm)
      | x :: r1 :: rs =>
        have hx : x ≠ k' := by
          intro hcon
          subst hcon
          exact hq' ⟨r1 :: rs, rfl⟩
        rw [getParts_cons_cons, getParts_cons_cons,
          leafWrite_dget_ne _ _ _ _ _ _ (fun hc => hx hc.symm)]
    | cons s1 ss =>
      obtain ⟨c, c', hsetc, rfl, hcase⟩ := setParts_some_cons _ _ _ _ _ _ _ _ hset
      match q with
      | [] => rfl
      | [x] =>
        have hx : x ≠ k' := by
          intro hcon
          subst hcon
          exact hq ⟨s1 :: ss, rfl⟩
        exact dget_dset_ne _ _ _ _ (fun hc => hx hc.symm)
      | x :: r1 :: rs =>
        by_cases hx : x = k'
        · subst hx
          have hq2 : ¬ partsLe (r1 :: rs) (s1 :: ss) := by
            intro ⟨t, ht⟩
            exact hq ⟨t, by simp [ht]⟩
          have hq2' : ¬ partsLe (s1 :: ss) (r1 :: rs) := by
            intro ⟨t, ht⟩
            exact hq' ⟨t, by simp [ht]⟩
          rcases hcase with hobj | ⟨hnone, rfl⟩
          · rw [getParts_cons_cons, getParts_cons_cons, dget_dset_self, hobj]
            exact ih _ _ _ _ _ _ hq2 hq2' hsetc
          · rw [getParts_cons_cons, getParts_cons_cons, dget_dset_self, hnone]
            have := ih _ _ _ _ _ _ hq2 hq2' hsetc
            show getParts c' (r1 :: rs) = none
            rw [this, getParts_nil]
        · rw [getParts_cons_cons, getParts_cons_cons,
            dget_dset_ne _ _ _ _ (fun hc => hx hc.symm)]

/-- Writing along one path preserves walk compatibility of any path it
is not a prefix of. -/
theorem setParts_compat_other :
    ∀ (q' : List String) (d d' : JDict) (q : List String) (v p e : JVal),
    ¬ partsLe q' q →
    setParts d q' v p e = some d' →
    compatParts d q = true → compatParts d' q = true := by
  intro q'
  induction q' with
  | nil => intro d d' q v p e _ hset; exact absurd hset (by simp [setParts])
  | cons k' rest' ih =>
    intro d d' q v p e hq' hset hcompat
    cases rest' with
    | nil =>
      simp only [setParts, Option.some.injEq] at hset
      subst hset
      match q with
      | [] => rfl
      | [x] => rfl
      | x :: r1 :: rs =>
        have hx : x ≠ k' := by
          intro hcon
          subst hcon
          exact hq' ⟨r1 :: rs, rfl⟩
        rw [compatParts_cons_cons] at hcompat ⊢
        rw [leafWrite_dget_ne _ _ _ _ _ _ (fun hc => hx hc.symm)]
        exact hcompat
    | cons s1 ss =>
      obtain ⟨c, c', hsetc, rfl, hcase⟩ := setParts_some_cons _ _ _ _ _ _ _ _ hset
      match q with
      | [] => rfl
      | [x] => rfl
      | x :: r1 :: rs =>
        by_cases hx : x = k'
        · subst hx
          have hq2' : ¬ partsLe (s1 :: ss) (r1 :: rs) := by
            intro ⟨t, ht⟩
            exact hq' ⟨t, by simp [ht]⟩
          rcases hcase with hobj | ⟨hnone, rfl⟩
          · rw [compatParts_cons_cons] at hcompat ⊢
            rw [dget_dset_self]
            rw [hobj] at hcompat
            exact ih _ _ _ _ _ _ hq2' hsetc hcompat
          · rw [compatParts_cons_cons, dget_dset_self]
            exact ih _ _ _ _ _ _ hq2' hsetc (compatParts_nil _)
        · rw [compatParts_cons_cons] at hcompat ⊢
          rw [dget_dset_ne _ _ _ _ (fun hc => hx hc.symm)]
          exact hcompat

theorem splitDot_ne_nil (l : List Char) : splitDot l ≠ [] := by
  cases l with
  | nil => simp [splitDot]
  | cons c t =>
    by_cases hc : c = '.'
    · simp [splitDot, hc]
    · simp only [splitDot, hc, if_false]
      rcases splitDot t with _ | ⟨h, r⟩ <;> simp

theorem splitDotS_ne_nil (s : String) : splitDotS s ≠ [] := by
  simp only [splitDotS, ne_eq, List.map_eq_nil_iff]
  exact splitDot_ne_nil _

theorem splitDot_no_dot (l : List Char) (h : '.' ∉ l) : splitDot l = [l] := by
  induction l with
  | nil => rfl
  | cons c t ih =>
    have hc : c ≠ '.' := fun hcon => h (by simp [hcon])
    have ht : '.' ∉ t := fun hcon => h (by simp [hcon])
    simp only [splitDot, hc, if_false, ih ht]

theorem splitDot_append (p k : List Char) (hk : '.' ∉ k) :
    splitDot (p ++ '.' :: k) = splitDot p ++ [k] := by
  induction p with
  | nil => simp [splitDot, splitDot_no_dot k hk]
  | cons c t ih =>
    by_cases hc : c = '.'
    · simp [splitDot, hc, ih]
    · rcases hsp : splitDot t with _ | ⟨h1, r1⟩
      · exact absurd hsp (splitDot_ne_nil t)
      · have lhs : splitDot ((c :: t) ++ '.' :: k) =
            match splitDot (t ++ '.' :: k) with
            | [] => [[c]]
            | h :: r => (c :: h) :: r := by
          simp [splitDot, hc]
        rw [lhs, ih, hsp]
        simp [splitDot, hc, hsp]

theorem string_mk_data (s : String) : String.mk s.data = s := rfl

theorem splitDotS_append (pre k : String) (hk : '.' ∉ k.data) :
    splitDotS (pre ++ "." ++ k) = splitDotS pre ++ [k] := by
  simp only [splitDotS]
  have hdata : (pre ++ "." ++ k).data = pre.data ++ '.' :: k.data := by
    simp [String.data_append]
  rw [hdata, splitDot_append _ _ hk, List.map_append]
  simp [string_mk_data]

/-- The split of the string prefix an empty prefix contributing no
components. -/
def pparts (pre : String) : List String := if pre = "" then [] else splitDotS pre

theorem splitDotS_single (k : String) (hk : '.' ∉ k.data) : splitDotS k = [k] := by
  simp only [splitDotS, splitDot_no_dot k.data hk, List.map_cons, List.map_nil]

theorem splitDotS_joinPath (pre k : String) (hk : '.' ∉ k.data) :
    splitDotS (joinPath pre k) = pparts pre ++ [k] := by
  by_cases hp : pre = ""
  · simp [joinPath, pparts, hp, splitDotS_single k hk]
  · simp [joinPath, pparts, hp, splitDotS_append pre k hk]

theorem joinPath_ne_empty (pre k : String) (hk : k ≠ "") :
    joinPath pre k ≠ "" := by
  by_cases hp : pre = ""
  · simpa [joinPath, hp] using hk
  · simp only [joinPath, hp, if_false]
    intro hcon
    have : (pre ++ "." ++ k).data = [] := by rw [hcon]
    simp [String.data_append] at this

theorem pparts_joinPath (pre k : String) (hk : '.' ∉ k.data) (hne : k ≠ "") :
    pparts (joinPath pre k) = pparts pre ++ [k] := by
  rw [pparts, if_neg (joinPath_ne_empty pre k hne)]
  exact splitDotS_joinPath pre k hk

theorem dget_cons_self (k : String) (v : JVal) (rest : JDict) :
    dget ((k, v) :: rest) k = some v := by simp [dget]

theorem dget_cons_ne (k x : String) (v : JVal) (rest : JDict) (h : k ≠ x) :
    dget ((k, v) :: rest) x = dget rest x := by simp [dget, h]

theorem compatParts_cons_entry (k x : String) (v : JVal) (rest : JDict)
    (c : List String) (h : k ≠ x) :
    compatParts ((k, v) :: rest) (x :: c) = compatParts rest (x :: c) := by
  cases c with
  | nil => rfl
  | cons c1 cs => rw [compatParts_cons_cons, compatParts_cons_cons, dget_cons_ne _ _ _ _ h]

theorem keyOk_facts (k : String) (h : keyOk k = true) : k ≠ "" ∧ '.' ∉ k.data := by
  simp only [keyOk, Bool.and_eq_true, Bool.not_eq_true'] at h
  obtain ⟨h1, h2⟩ := h
  constructor
  · simpa using h1
  · simp_all

/-- The relation every pair of collected field paths satisfies: neither
split path is a prefix of the other. -/
def pathsApart (a b : String × String × JVal) : Prop :=
  ¬ partsLe (splitDotS a.1) (splitDotS b.1) ∧ ¬ partsLe (splitDotS b.1) (splitDotS a.1)

theorem collect_tail_lift (k : String) (v : JVal) (rest : JDict) (pre : String)
    (hnotmem : (rest.map Prod.fst).contains k = false)
    (hrest : ∀ s ∈ collect_fields rest pre,
      ∃ k2 c, splitDotS s.1 = pparts pre ++ k2 :: c ∧
        (rest.map Prod.fst).contains k2 = true ∧
        compatParts rest (k2 :: c) = true) :
    ∀ s ∈ collect_fields rest pre,
      ∃ k2 c, splitDotS s.1 = pparts pre ++ k2 :: c ∧
        (((k, v) :: rest).map Prod.fst).contains k2 = true ∧
        compatParts ((k, v) :: rest) (k2 :: c) = true := by
  intro s hs
  obtain ⟨k2, c, h1, h2, h3⟩ := hrest s hs
  have hk2ne : k ≠ k2 := by
    intro hcon
    subst hcon
    rw [h2] at hnotmem
    exact Bool.noConfusion hnotmem
  refine ⟨k2, c, h1, by simp_all, ?_⟩
  rw [compatParts_cons_entry _ _ _ _ _ hk2ne]
  exact h3

theorem wfDict_cons_elim (k : String) (v : JVal) (rest : JDict)
    (h : wfDict ((k, v) :: rest) = true) :
    keyOk k = true ∧ (rest.map Prod.fst).contains k = false ∧ wfDict rest = true ∧
      (∀ vkvs, v = JVal.obj vkvs → wfDict vkvs = true) := by
  cases v with
  | obj vkvs =>
    simp only [wfDict, Bool.and_eq_true, Bool.not_eq_true'] at h
    exact ⟨h.1.1.1, h.1.1.2, h.2, fun vk hvk => by cases hvk; exact h.1.2⟩
  | null =>
    simp only [wfDict, Bool.and_eq_true, Bool.and_true, Bool.not_eq_true'] at h
    exact ⟨h.1.1, h.1.2, h.2, fun vk hvk => JVal.noConfusion hvk⟩
  | bool b =>
    simp only [wfDict, Bool.and_eq_true, Bool.and_true, Bool.not_eq_true'] at h
    exact ⟨h.1.1, h.1.2, h.2, fun vk hvk => JVal.noConfusion hvk⟩
  | num n =>
    simp only [wfDict, Bool.and_eq_true, Bool.and_true, Bool.not_eq_true'] at h
    exact ⟨h.1.1, h.1.2, h.2, fun vk hvk => JVal.noConfusion hvk⟩
  | numF s =>
    simp only [wfDict, Bool.and_eq_true, Bool.and_true, Bool.not_eq_true'] at h
    exact ⟨h.1.1, h.1.2, h.2, fun vk hvk => JVal.noConfusion hvk⟩
  | str s =>
    simp only [wfDict, Bool.and_eq_true, Bool.and_true, Bool.not_eq_true'] at h
    exact ⟨h.1.1, h.1.2, h.2, fun vk hvk => JVal.noConfusion hvk⟩
  | arr xs =>
    simp only [wfDict, Bool.and_eq_true, Bool.and_true, Bool.not_eq_true'] at h
    exact ⟨h.1.1, h.1.2, h.2, fun vk hvk => JVal.noConfusion hvk⟩

theorem collect_fields_props (kvs : JDict) (pre : String) :
    wfDict kvs = true →
    (∀ s ∈ collect_fields kvs pre,
      ∃ k c, splitDotS s.1 = pparts pre ++ k :: c ∧
        (kvs.map Prod.fst).contains k = true ∧
        compatParts kvs (k :: c) = true)
    ∧ List.Pairwise pathsApart (collect_fields kvs pre) := by
  induction kvs, pre using collect_fields.induct with
  | case1 pre =>
    intro _
    refine ⟨?_, ?_⟩
    · intro s hs
      rw [collect_fields] at hs
      exact absurd hs (List.not_mem_nil s)
    · rw [collect_fields]
      exact List.Pairwise.nil
  | case2 k v rest pre ihv ihrest =>
    intro hwf
    obtain ⟨hkeyOk, hnotmem, hrestwf, hobjwf⟩ := wfDict_cons_elim k v rest hwf
    obtain ⟨hkne, hkdot⟩ := keyOk_facts k hkeyOk
    have hrest := ihrest hrestwf
    have htail := collect_tail_lift k v rest pre hnotmem hrest.1
    have hsplitJoin : splitDotS (joinPath pre k) = pparts pre ++ [k] :=
      splitDotS_joinPath pre k hkdot
    cases v with
    | obj vkvs =>
      have hvkvswf : wfDict vkvs = true := hobjwf vkvs rfl
      simp only [collect_fields]
      by_cases hmeta : startsWithL (joinPath pre k).data "meta.".data = true
      · rw [if_pos hmeta, List.nil_append]
        exact ⟨htail, hrest.2⟩
      · rw [if_neg hmeta]
        by_cases hhk : hasKey vkvs "expected_type" = true
        · rw [if_pos hhk]
          constructor
          · intro s hs
            rcases List.mem_append.mp hs with hin | hin
            · simp only [List.mem_singleton] at hin
              subst hin
              refine ⟨k, [], by simpa using hsplitJoin, by simp, rfl⟩
            · exact htail s hin
          · rw [List.pairwise_append]
            refine ⟨by simp, hrest.2, ?_⟩
            intro a ha b hb
            simp only [List.mem_singleton] at ha
            subst ha
            obtain ⟨k2, c2, hb1, hb2, hb3⟩ := hrest.1 b hb
            have hk2ne : k ≠ k2 := by
              intro hcon
              subst hcon
              rw [hb2] at hnotmem
              exact Bool.noConfusion hnotmem
            constructor
            · intro hle
              rw [show ((joinPath pre k, joinPath pre k,
                (dget vkvs "expected_type").getD (JVal.str "")) :
                String × String × JVal).1 = joinPath pre k from rfl,
                hsplitJoin, hb1] at hle
              exact hk2ne (eq_of_partsLe_append_cons _ _ _ _ _ hle)
            · intro hle
              rw [show ((joinPath pre k, joinPath pre k,
                (dget vkvs "expected_type").getD (JVal.str "")) :
                String × String × JVal).1 = joinPath pre k from rfl,
                hsplitJoin, hb1] at hle
              exact hk2ne (eq_of_partsLe_append_cons _ _ _ _ _ hle).symm
        · rw [if_neg hhk]
          have hrec := ihv hvkvswf
          have hppj : pparts (joinPath pre k) = pparts pre ++ [k] :=
            pparts_joinPath pre k hkdot hkne
          constructor
          · intro s hs
            rcases List.mem_append.mp hs with hin | hin
            · obtain ⟨k2, c2, h1, h2, h3⟩ := hrec.1 s hin
              refine ⟨k, k2 :: c2, ?_, by simp, ?_⟩
              · rw [h1, hppj, List.append_assoc]
                rfl
              · rw [compatParts_cons_cons, dget_cons_self]
                exact h3
            · exact htail s hin
          · rw [List.pairwise_append]
            refine ⟨hrec.2, hrest.2, ?_⟩
            intro a ha b hb
            obtain ⟨ka, ca, ha1, ha2, ha3⟩ := hrec.1 a ha
            obtain ⟨kb, cb, hb1, hb2, hb3⟩ := hrest.1 b hb
            have hkbne : k ≠ kb := by
              intro hcon
              subst hcon
              rw [hb2] at hnotmem
              exact Bool.noConfusion hnotmem
            have ha1' : splitDotS a.1 = pparts pre ++ k :: (ka :: ca) := by
              rw [ha1, hppj, List.append_assoc]
              rfl
            constructor
            · intro hle
              rw [ha1', hb1] at hle
              exact hkbne (eq_of_partsLe_append_cons _ _ _ _ _ hle)
            · intro hle
              rw [ha1', hb1] at hle
              exact hkbne (eq_of_partsLe_append_cons _ _ _ _ _ hle).symm
    | null =>
      simp only [collect_fields, ite_self, List.nil_append]
      exact ⟨htail, hrest.2⟩
    | bool b =>
      simp only [collect_fields, ite_self, List.nil_append]
      exact ⟨htail, hrest.2⟩
    | num n =>
      simp only [collect_fields, ite_self, List.nil_append]
      exact ⟨htail, hrest.2⟩
    | numF s =>
      simp only [collect_fields, ite_self, List.nil_append]
      exact ⟨htail, hrest.2⟩
    | str s =>
      simp only [collect_fields, ite_self, List.nil_append]
      exact ⟨htail, hrest.2⟩
    | arr xs =>
      simp only [collect_fields, ite_self, List.nil_append]
      exact ⟨htail, hrest.2⟩

theorem obsParts_congr (d d' : JDict) (q : List String) (v p e : JVal)
    (h : getParts d q = getParts d' q) :
    obsParts d q v p e → obsParts d' q v p e := by
  intro ⟨r, s, h1, h2, h3, h4, h5⟩
  exact ⟨r, s, h.symm.trans h1, h2, h3, h4, h5⟩

theorem fill_fields_getParts_other (specs : List (String × String × JVal)) :
    ∀ (t t' llm : JDict) (q : List String),
    fill_fields t llm specs = some t' →
    (∀ s ∈ specs, ¬ partsLe q (splitDotS s.1) ∧ ¬ partsLe (splitDotS s.1) q) →
    getParts t' q = getParts t q := by
  induction specs with
  | nil =>
    intro t t' llm q hf _
    simp only [fill_fields, Option.some.injEq] at hf
    subst hf
    rfl
  | cons s rest ih =>
    intro t t' llm q hf hrel
    obtain ⟨path, lab, ty⟩ := s
    simp only [fill_fields] at hf
    rcases hset : set_path t path (fillValue llm path) (fillPage llm path)
        (fillExcerpt llm path) with _ | t1
    · simp only [hset] at hf
      exact Option.noConfusion hf
    · simp only [hset] at hf
      have h1 := ih t1 t' llm q hf (fun r hr => hrel r (by simp [hr]))
      have hhead := hrel (path, lab, ty) (by simp)
      have h2 := setParts_getParts_other (splitDotS path) t t1 q _ _ _
        hhead.1 hhead.2 hset
      rw [h1, h2]

theorem fill_fields_obs (specs : List (String × String × JVal)) :
    ∀ (t llm : JDict),
    (∀ s ∈ specs, compatParts t (splitDotS s.1) = true) →
    List.Pairwise pathsApart specs →
    ∃ t', fill_fields t llm specs = some t' ∧
      ∀ s ∈ specs, obsParts t' (splitDotS s.1) (fillValue llm s.1)
        (fillPage llm s.1) (fillExcerpt llm s.1) := by
  induction specs with
  | nil =>
    intro t llm _ _
    exact ⟨t, rfl, by intro s hs; exact absurd hs (List.not_mem_nil s)⟩
  | cons s rest ih =>
    intro t llm hcomp hpair
    obtain ⟨path, lab, ty⟩ := s
    obtain ⟨hrel, hpairrest⟩ := List.pairwise_cons.mp hpair
    have hcomphead := hcomp (path, lab, ty) (by simp)
    obtain ⟨t1, hset, hobs1⟩ := setParts_obs (splitDotS path) t
      (fillValue llm path) (fillPage llm path) (fillExcerpt llm path)
      (splitDotS_ne_nil path) hcomphead
    have hcomprest : ∀ r ∈ rest, compatParts t1 (splitDotS r.1) = true := by
      intro r hr
      exact setParts_compat_other (splitDotS path) t t1 (splitDotS r.1) _ _ _
        (hrel r hr).1 hset (hcomp r (by simp [hr]))
    obtain ⟨t', hfill, hobsrest⟩ := ih t1 llm hcomprest hpairrest
    have hset' : set_path t path (fillValue llm path) (fillPage llm path)
        (fillExcerpt llm path) = some t1 := hset
    refine ⟨t', ?_, ?_⟩
    · simp only [fill_fields, hset']
      exact hfill
    · intro r hr
      rcases List.mem_cons.mp hr with hre | hr2
      · subst hre
        have hpres := fill_fields_getParts_other rest t1 t' llm
          (splitDotS path) hfill
          (fun r2 h2 => ⟨(hrel r2 h2).1, (hrel r2 h2).2⟩)
        exact obsParts_congr t1 t' _ _ _ _ hpres.symm hobs1
      · exact hobsrest r hr2

/-- C5: for every well-formed template (keys nonempty, dot-free, unique
per level) and every merged extraction result (including the empty one),
the fill loop succeeds and writes one `{value, source: {page, excerpt}}`
record for every FieldSpec collected from the template: the collected
paths are pairwise distinct and reading each back with the dot-path
accessor yields exactly the record the loop computed for it; a field
whose payload is absent from the merged result carries the literal
string `"not found"` as its value — the output shape is a total
function of the template. -/
theorem fill_writes_every_field (t llm : JDict) (hwf : wfDict t = true) :
    ∃ filled, fill_fields t llm (collect_fields t "") = some filled ∧
      ((collect_fields t "").map (fun s => s.1)).Nodup ∧
      ∀ s ∈ collect_fields t "",
        obsParts filled (splitDotS s.1) (fillValue llm s.1) (fillPage llm s.1)
          (fillExcerpt llm s.1)
        ∧ (dget llm s.1 = none → fillValue llm s.1 = JVal.str "not found") := by
  have hprops := collect_fields_props t "" hwf
  have hcomp : ∀ s ∈ collect_fields t "", compatParts t (splitDotS s.1) = true := by
    intro s hs
    obtain ⟨k, c, h1, _, h3⟩ := hprops.1 s hs
    rw [h1]
    simpa [pparts] using h3
  obtain ⟨filled, hfill, hobs⟩ :=
    fill_fields_obs (collect_fields t "") t llm hcomp hprops.2
  refine ⟨filled, hfill, ?_, ?_⟩
  · have hne : List.Pairwise (fun a b : String × String × JVal => a.1 ≠ b.1)
        (collect_fields t "") := by
      refine hprops.2.imp ?_
      intro a b hab heq
      exact hab.1 (by rw [heq]; exact partsLe_self _)
    exact List.pairwise_map.mpr hne
  · intro s hs
    refine ⟨hobs s hs, ?_⟩
    intro hnone
    simp [fillValue, hnone]

/-- Witness for C5 at a one-field template and the empty merged
result. -/
theorem fill_writes_every_field_witness :
    wfDict [("a", JVal.obj [("expected_type", JVal.str "string")])] = true ∧
    ∃ filled,
      fill_fields [("a", JVal.obj [("expected_type", JVal.str "string")])] []
        (collect_fields [("a", JVal.obj [("expected_type", JVal.str "string")])] "") =
        some filled ∧
      ((collect_fields [("a", JVal.obj [("expected_type", JVal.str "string")])] "").map
        (fun s => s.1)).Nodup ∧
      ∀ s ∈ collect_fields [("a", JVal.obj [("expected_type", JVal.str "string")])] "",
        obsParts filled (splitDotS s.1) (fillValue [] s.1) (fillPage [] s.1)
          (fillExcerpt [] s.1)
        ∧ (dget [] s.1 = none → fillValue [] s.1 = JVal.str "not found") := by
  have hwfT : wfDict [("a", JVal.obj [("expected_type", JVal.str "string")])] = true := by
    simp [wfDict, keyOk]
  exact ⟨hwfT, fill_writes_every_field _ [] hwfT⟩

/-- C10 (counterexample): when the payload for a field is present but
not dict-shaped, the fill loop writes the empty string as the excerpt,
not null: filling a one-field template against `{"f": "oops"}` stores
`excerpt = ""`. -/
theorem fill_excerpt_counterexample :
    fill_fields [("f", JVal.obj [("expected_type", JVal.str "string")])]
        [("f", JVal.str "oops")] [("f", "f", JVal.str "string")] =
      some [("f", JVal.obj [("expected_type", JVal.str "string"),
        ("value", JVal.str "not found"),
        ("source", JVal.obj [("page", JVal.null), ("excerpt", JVal.str "")])])]
    ∧ JVal.str "" ≠ JVal.null := by
  constructor
  · rfl
  · intro h
    exact JVal.noConfusion h

/-- C10 (amended): for a field path whose payload is missing from the
merged result, the fill loop writes value `"not found"`, page null and
excerpt null; for a payload that is present but not dict-shaped it
writes value `"not found"`, page null and the empty string — not null —
as the excerpt. -/
theorem fill_defaults (llm : JDict) (path : String) :
    (dget llm path = none →
      fillValue llm path = JVal.str "not found" ∧
      fillPage llm path = JVal.null ∧
      fillExcerpt llm path = JVal.null)
    ∧ (∀ v, dget llm path = some v → isObjB v = false →
      fillValue llm path = JVal.str "not found" ∧
      fillPage llm path = JVal.null ∧
      fillExcerpt llm path = JVal.str "") := by
  constructor
  · intro h
    exact ⟨by simp [fillValue, h], by simp [fillPage, h], by simp [fillExcerpt, h]⟩
  · intro v h hobj
    cases v <;> simp_all [fillValue, fillPage, fillExcerpt, isObjB]

/-- Witness for C10 (amended): the two default cases at concrete
inputs. -/
theorem fill_defaults_witness :
    fillExcerpt [] "f" = JVal.null ∧
    fillExcerpt [("f", JVal.str "x")] "f" = JVal.str "" :=
  ⟨((fill_defaults [] "f").1 rfl).2.2,
   ((fill_defaults [("f", JVal.str "x")] "f").2 (JVal.str "x") rfl rfl).2.2⟩

/-- ASCII alphanumeric, the character class `[a-zA-Z0-9]` of the
relevance filter's regex. -/
def isAlnumAscii (c : Char) : Bool :=
  ('a' ≤ c && c ≤ 'z') || ('A' ≤ c && c ≤ 'Z') || ('0' ≤ c && c ≤ '9')

/-- Maximal alphanumeric runs of a string, modelling
`re.split(r"[^a-zA-Z0-9]+", s)` up to the empty-string artifacts that
`re.split` can produce at the ends — those never pass the `len > 3`
filter, so dropping them is observationally equal here. -/
def alnumRunsGo : List Char → List Char → List (List Char)
  | [], acc => if acc.isEmpty then [] else [acc.reverse]
  | c :: t, acc =>
    if isAlnumAscii c then alnumRunsGo t (c :: acc)
    else if acc.isEmpty then alnumRunsGo t []
    else acc.reverse :: alnumRunsGo t []

/-- The alphanumeric runs of a character list. -/
def alnumRuns (l : List Char) : List (List Char) := alnumRunsGo l []

/-- Whether `needle` is a prefix of `hay`. -/
def prefixOfL : List Char → List Char → Bool
  | [], _ => true
  | _ :: _, [] => false
  | a :: as, b :: bs => a = b && prefixOfL as bs

/-- Python substring membership `needle in hay`. -/
def containsSub : List Char → List Char → Bool
  | [], needle => needle.isEmpty
  | c :: t, needle => prefixOfL needle (c :: t) || containsSub t needle

/-- The token set of `find_relevant_pages` (`src/core/utils.py` lines
106-110): split each label's lowercase form on non-alphanumeric runs and
keep tokens longer than 3 characters (as a list; only membership is
used, so the Python `set` is immaterial). -/
def tokenSetOf (field_specs : List (String × String × JVal)) : List String :=
  field_specs.flatMap (fun s =>
    ((alnumRuns (pyLower s.2.1).data).filter (fun t => 3 < t.length)).map String.mk)

/-- `find_relevant_pages` from `src/core/utils.py` lines 105-116: keep
the pages whose lowercased text contains some token as a substring, in
input order. -/
def find_relevant_pages (pages : List (Nat × String))
    (field_specs : List (String × String × JVal)) : List (Nat × String) :=
  pages.filter (fun pg =>
    (tokenSetOf field_specs).any (fun t => containsSub (pyLower pg.2).data t.data))

/-- One page's snippet in `flatten_pages`:
`f"[page {page_no}]\n{text.strip()}\n"`. -/
def pageSnippet (page_no : Nat) (text : String) : String :=
  "[page " ++ toString page_no ++ "]\n" ++ pyStrip text ++ "\n"

/-- The loop of `flatten_pages` (`src/core/utils.py` lines 14-23):
accumulate snippets until one would push the running total above
`max_chars`, then stop. -/
def flattenChunks : List (Nat × String) → Nat → Nat → List String
  | [], _, _ => []
  | (n, t) :: rest, total, max_chars =>
    if max_chars < total + (pageSnippet n t).length then []
    else pageSnippet n t :: flattenChunks rest (total + (pageSnippet n t).length) max_chars

/-- `flatten_pages` from `src/core/utils.py` lines 14-23 (`"\n".join`
of the accumulated snippets). -/
def flatten_pages (pages : List (Nat × String)) (max_chars : Nat := 32000) : String :=
  String.intercalate "\n" (flattenChunks pages 0 max_chars)

/-- `build_prompt_content` from `src/core/utils.py` lines 37-50. -/
def build_prompt_content (doc_text : String)
    (field_specs : List (String × String × JVal)) : String × String :=
  let fields := String.intercalate "\n"
    (field_specs.map (fun s => "- " ++ s.1 ++ " | " ++ s.2.1 ++ " | " ++ pyStr s.2.2))
  let system := "Tu es un assistant qui extrait des champs factuels depuis un document immobilier. Réponds UNIQUEMENT avec un objet JSON, sans texte avant ou après."
  let user := String.intercalate "\n"
    [ "Produit un objet JSON avec exactement les clés dot-path listées ci-dessous.",
      "Pour chaque clé, renvoie \x7b\"value\": <valeur ou \"not found\">, \"page\": <numero de page ou null>, \"excerpt\": <phrase source ou \"\">\x7d.",
      "Si tu ne trouves pas, value = \"not found\", page = null, excerpt = \"\".",
      "Si c\x27est une liste : renvoie un tableau JSON.",
      "Si c\x27est un boolean : true/false.",
      "Si c\x27est un objet contact : \x7b\"email\": \"...\", \"telephone\": \"...\"\x7d.",
      "Champs à extraire :\n" ++ fields ++ "\n\nDocument paginé :\n" ++ doc_text ]
  (system, user)

/-- The prompt string sent by `run_chunk` / the second pass:
`system + "\n\n" + user`. -/
def mkPrompt (doc_text : String) (specs : List (String × String × JVal)) : String :=
  (build_prompt_content doc_text specs).1 ++ "\n\n" ++ (build_prompt_content doc_text specs).2

/-- The per-field value the second pass tests for "still missing"
(`src/cli_gemini.py` line 115): the payload's `value` when the payload
is dict-shaped, Python `None` otherwise. -/
def missingValue (llm_result : JDict) (path : String) : JVal :=
  match dget llm_result path with
  | some (JVal.obj pk) => (dget pk "value").getD JVal.null
  | _ => JVal.null

/-- The still-missing field specs of the second pass
(`src/cli_gemini.py` lines 113-117). -/
def compute_missing (llm_result : JDict)
    (specs : List (String × String × JVal)) : List (String × String × JVal) :=
  specs.filter (fun s => !(is_found (missingValue llm_result s.1)))

/-- The second pass of `src/cli_gemini.py` lines 112-125, with the LLM
call abstracted as an oracle from the prompt to the parsed result: if
no field is missing, or no page is relevant, the running result is
returned unchanged and the oracle is never consulted. -/
def second_pass (llm : String → JVal) (llm_result : JDict)
    (pages : List (Nat × String)) (field_specs : List (String × String × JVal)) : JDict :=
  match compute_missing llm_result field_specs with
  | [] => llm_result
  | m1 :: mrest =>
    match find_relevant_pages pages (m1 :: mrest) with
    | [] => llm_result
    | r1 :: rrest =>
      merge_extractions llm_result
        (llm (mkPrompt (flatten_pages (r1 :: rrest)) (m1 :: mrest)))

/-- C6: the relevance filter builds its token set by splitting each
missing field's lowercased label on non-alphanumeric runs and keeping
tokens longer than 3 characters; it selects exactly the pages whose
lowercased text contains some token as a substring, as an ordered
subsequence of the input pages; when no page is relevant the second
pass returns the running result unchanged, performing no LLM call; and
on the claim's scenario (label "Date de construction") only page 2 is
selected. -/
theorem find_relevant_pages_spec :
    (∀ (pages : List (Nat × String)) (specs : List (String × String × JVal)),
      List.Sublist (find_relevant_pages pages specs) pages)
    ∧ (∀ (pages : List (Nat × String)) (specs : List (String × String × JVal)) pg,
      pg ∈ find_relevant_pages pages specs ↔
        pg ∈ pages ∧ ∃ t ∈ tokenSetOf specs,
          containsSub (pyLower pg.2).data t.data = true)
    ∧ (∀ (specs : List (String × String × JVal)) (t : List Char),
      String.mk t ∈ tokenSetOf specs ↔
        ∃ s ∈ specs, t ∈ alnumRuns (pyLower s.2.1).data ∧ 3 < t.length)
    ∧ (∀ (llm : String → JVal) (llm_result : JDict) (pages : List (Nat × String))
        (specs : List (String × String × JVal)),
      find_relevant_pages pages (compute_missing llm_result specs) = [] →
      second_pass llm llm_result pages specs = llm_result)
    ∧ find_relevant_pages [(1, "Cette résidence..."), (2, "Date de construction: 1985")]
        [("f1", "Date de construction", JVal.str "string")] =
      [(2, "Date de construction: 1985")] := by
  refine ⟨?_, ?_, ?_, ?_, by decide⟩
  · intro pages specs
    exact List.filter_sublist _
  · intro pages specs pg
    simp [find_relevant_pages, List.mem_filter, List.any_eq_true]
  · intro specs t
    constructor
    · intro h
      simp only [tokenSetOf, List.mem_flatMap, List.mem_map, List.mem_filter] at h
      obtain ⟨s, hs, run, ⟨hrun, hlen⟩, heq⟩ := h
      have : run = t := by
        injection heq
      subst this
      exact ⟨s, hs, hrun, by simpa using hlen⟩
    · intro ⟨s, hs, hrun, hlen⟩
      simp only [tokenSetOf, List.mem_flatMap, List.mem_map, List.mem_filter]
      exact ⟨s, hs, t, ⟨hrun, by simpa using hlen⟩, rfl⟩
  · intro llm llm_result pages specs h
    rcases hm : compute_missing llm_result specs with _ | ⟨m1, mrest⟩
    · simp [second_pass, hm]
    · rw [hm] at h
      simp [second_pass, hm, h]

/-- Witness for C6: with page text "xyz" no token of the missing label
"Date de construction" matches, so the second pass leaves the running
result unchanged. -/
theorem find_relevant_pages_spec_witness :
    find_relevant_pages [(1, "xyz")]
      (compute_missing [] [("f1", "Date de construction", JVal.str "string")]) = []
    ∧ second_pass (fun _ => JVal.obj [("f1", JVal.obj [("value", JVal.str "X")])])
        [] [(1, "xyz")] [("f1", "Date de construction", JVal.str "string")] = [] := by
  have h : find_relevant_pages [(1, "xyz")]
      (compute_missing [] [("f1", "Date de construction", JVal.str "string")]) = [] := rfl
  exact ⟨h, find_relevant_pages_spec.2.2.2.1
    (fun _ => JVal.obj [("f1", JVal.obj [("value", JVal.str "X")])])
    [] [(1, "xyz")] [("f1", "Date de construction", JVal.str "string")] h⟩

/-- Modelled from the claim wording, for comparison with the code: the
number of leading snippets kept before the first one that would push
the cumulative snippet length above the limit. -/
def snippetKeepCount : List String → Nat → Nat → Nat
  | [], _, _ => 0
  | s :: rest, total, max_chars =>
    if max_chars < total + s.length then 0
    else snippetKeepCount rest (total + s.length) max_chars + 1

theorem flattenChunks_eq_take (pages : List (Nat × String)) :
    ∀ (total max_chars : Nat),
    flattenChunks pages total max_chars =
      (pages.map (fun p => pageSnippet p.1 p.2)).take
        (snippetKeepCount (pages.map (fun p => pageSnippet p.1 p.2)) total max_chars) := by
  induction pages with
  | nil => intro total max_chars; rfl
  | cons p rest ih =>
    intro total max_chars
    obtain ⟨n, t⟩ := p
    by_cases h : max_chars < total + (pageSnippet n t).length
    · simp [flattenChunks, snippetKeepCount, h]
    · simp [flattenChunks, snippetKeepCount, h, ih, List.take_succ_cons]

theorem stripList_of_no_ws (l : List Char) (h : ∀ c ∈ l, isPyWs c = false) :
    stripList l = l := by
  have hdrop : ∀ (m : List Char), (∀ c ∈ m, isPyWs c = false) → m.dropWhile isPyWs = m := by
    intro m hm
    cases m with
    | nil => rfl
    | cons c t => rw [List.dropWhile_cons_of_neg (by simp [hm c (by simp)])]
  rw [stripList, hdrop l h, hdrop l.reverse (by simpa using fun c hc => h c hc),
    List.reverse_reverse]

theorem pyStrip_big_a :
    pyStrip (String.mk (List.replicate 40000 'a')) = String.mk (List.replicate 40000 'a') := by
  unfold pyStrip
  rw [stripList_of_no_ws]
  intro c hc
  have : c = 'a' := List.eq_of_mem_replicate hc
  subst this
  rfl

theorem pageSnippet_big_a_length :
    (pageSnippet 1 (String.mk (List.replicate 40000 'a'))).length = 40010 := by
  unfold pageSnippet
  rw [pyStrip_big_a]
  have h1 : (String.mk (List.replicate 40000 'a')).length = 40000 := by
    show (List.replicate 40000 'a').length = 40000
    exact List.length_replicate _ _
  rw [String.length_append, String.length_append, String.length_append,
    String.length_append, h1]
  norm_num [show ("[page " : String).length = 6 from rfl,
    show (toString (1 : Nat) : String).length = 1 from rfl,
    show ("]\n" : String).length = 2 from rfl,
    show ("\n" : String).length = 1 from rfl]

/-- C9: `flatten_pages` joins per-page snippets
`"[page N]\n" ++ stripped text ++ "\n"` in input order but stops at the
first page whose snippet would push the cumulative snippet length above
the limit (32000 by default); that page and all later pages are
silently omitted, so the flattened text built for a chunk can exclude
some of the chunk's pages entirely — e.g. a 40000-character first page
yields the empty document text. -/
theorem flatten_pages_truncates :
    (∀ (pages : List (Nat × String)) (max_chars : Nat),
      flatten_pages pages max_chars =
        String.intercalate "\n" ((pages.map (fun p => pageSnippet p.1 p.2)).take
          (snippetKeepCount (pages.map (fun p => pageSnippet p.1 p.2)) 0 max_chars)))
    ∧ flatten_pages [(1, String.mk (List.replicate 40000 'a')), (2, "x")] 32000 = "" := by
  constructor
  · intro pages max_chars
    rw [flatten_pages, flattenChunks_eq_take]
  · rw [flatten_pages]
    have hstep : flattenChunks [(1, String.mk (List.replicate 40000 'a')), (2, "x")] 0 32000 =
        if 32000 < 0 + (pageSnippet 1 (String.mk (List.replicate 40000 'a'))).length then
          ([] : List String)
        else pageSnippet 1 (String.mk (List.replicate 40000 'a')) ::
          flattenChunks [(2, "x")]
            (0 + (pageSnippet 1 (String.mk (List.replicate 40000 'a'))).length) 32000 := rfl
    rw [hstep, pageSnippet_big_a_length, if_pos (by norm_num)]
    rfl

/-- One page of a PDF as seen by `load_pages_with_ocr`: the native text
`page.extract_text()` may be `None`, and the whole
render-then-OCR attempt (`page_to_png_bytes` + `ocr_callback`) either
yields a text or raises (`none`), in which case the `except` clause
swallows it. -/
structure PdfPage where
  native : Option String
  ocrAttempt : Option String

/-- The PDF loop of `load_pages_with_ocr` (`src/core/utils.py` lines
124-138), pages enumerated from `idx`: stop when `max_pages` is truthy
(non-zero) and the index exceeds it; strip the native text; OCR when
forced or the native text is shorter than 80 characters; append the OCR
text when it is nonempty and not already a substring. -/
def load_pdf_go : List PdfPage → Nat → Int → Bool → List (Nat × String)
  | [], _, _, _ => []
  | pg :: rest, idx, max_pages, ocr_all =>
    if decide (max_pages ≠ 0) && decide (max_pages < (idx : Int)) then []
    else
      let text0 := pyStrip (pg.native.getD "")
      let text :=
        if ocr_all || decide (text0.length < 80) then
          match pg.ocrAttempt with
          | none => text0
          | some ocr_text =>
            if decide (ocr_text ≠ "") && !(containsSub text0.data ocr_text.data) then
              if decide (text0 ≠ "") then pyStrip (text0 ++ "\n" ++ ocr_text) else ocr_text
            else text0
        else text0
      (idx, text) :: load_pdf_go rest (idx + 1) max_pages ocr_all

/-- The PDF branch of `load_pages_with_ocr`, starting at page 1. -/
def load_pdf_pages (pdf : List PdfPage) (max_pages : Int) (ocr_all : Bool) :
    List (Nat × String) :=
  load_pdf_go pdf 1 max_pages ocr_all

theorem load_pdf_go_map_fst (pdf : List PdfPage) :
    ∀ (idx : Nat) (mp : Int) (oa : Bool),
    (load_pdf_go pdf idx mp oa).map Prod.fst =
      List.range' idx (load_pdf_go pdf idx mp oa).length := by
  induction pdf with
  | nil => intro idx mp oa; rfl
  | cons pg rest ih =>
    intro idx mp oa
    by_cases h : (decide (mp ≠ 0) && decide (mp < (idx : Int))) = true
    · rw [load_pdf_go, if_pos h]
      rfl
    · rw [load_pdf_go]
      rw [if_neg h]
      simp only [List.map_cons, List.length_cons, ih]
      rfl

theorem load_pdf_go_length_zero (pdf : List PdfPage) :
    ∀ (idx : Nat) (oa : Bool),
    (load_pdf_go pdf idx 0 oa).length = pdf.length := by
  induction pdf with
  | nil => intro idx oa; rfl
  | cons pg rest ih =>
    intro idx oa
    have hc : (decide ((0 : Int) ≠ 0) && decide ((0 : Int) < (idx : Int))) = false := by
      rw [show decide ((0 : Int) ≠ 0) = false from by decide, Bool.false_and]
    rw [load_pdf_go, if_neg (by rw [hc]; simp)]
    simp [ih]

theorem load_pdf_go_length_le (pdf : List PdfPage) :
    ∀ (idx : Nat) (mp : Int) (oa : Bool),
    (load_pdf_go pdf idx mp oa).length ≤ pdf.length := by
  induction pdf with
  | nil => intro idx mp oa; exact Nat.le_refl _
  | cons pg rest ih =>
    intro idx mp oa
    by_cases h : (decide (mp ≠ 0) && decide (mp < (idx : Int))) = true
    · rw [load_pdf_go, if_pos h]
      simp
    · rw [load_pdf_go, if_neg h]
      simpa using ih (idx + 1) mp oa

theorem load_pdf_go_length_bound (pdf : List PdfPage) :
    ∀ (idx : Nat) (mp : Int) (oa : Bool), 0 < mp →
    (((idx : Int) ≤ mp →
      ((load_pdf_go pdf idx mp oa).length : Int) ≤ mp - idx + 1) ∧
     (mp < (idx : Int) → load_pdf_go pdf idx mp oa = [])) := by
  induction pdf with
  | nil =>
    intro idx mp oa hmp
    refine ⟨fun hle => ?_, fun _ => rfl⟩
    rw [show load_pdf_go [] idx mp oa = [] from rfl]
    simp only [List.length_nil]
    push_cast
    omega
  | cons pg rest ih =>
    intro idx mp oa hmp
    constructor
    · intro hle
      have hcond : (decide (mp ≠ 0) && decide (mp < (idx : Int))) = false := by
        have hnlt : decide (mp < (idx : Int)) = false := decide_eq_false (by omega)
        rw [hnlt, Bool.and_false]
      rw [load_pdf_go, if_neg (by
        intro hcon
        rw [hcond] at hcon
        exact Bool.noConfusion hcon)]
      simp only [List.length_cons]
      have := ih (idx + 1) mp oa hmp
      by_cases h2 : ((idx : Int) + 1) ≤ mp
      · have hb := this.1 (by push_cast; omega)
        push_cast at hb ⊢
        omega
      · have hb := this.2 (by push_cast; omega)
        rw [hb]
        simp
        omega
    · intro hgt
      have hcond : (decide (mp ≠ 0) && decide (mp < (idx : Int))) = true := by
        simp only [Bool.and_eq_true, decide_eq_true_eq]
        exact ⟨by omega, hgt⟩
      rw [load_pdf_go, if_pos hcond]

/-- C7 (counterexample): with `max_pages = 0` the loader treats the
limit as disabled (`if max_pages and ...` is falsy), so a one-page
document still loads one page — more than `max_pages`. -/
theorem load_pdf_pages_zero_counterexample :
    (load_pdf_pages [⟨none, none⟩] 0 false).length = 1 ∧
    ¬ ((load_pdf_pages [⟨none, none⟩] 0 false).length ≤ 0) := by
  constructor
  · rfl
  · intro h
    rw [show (load_pdf_pages [⟨none, none⟩] 0 false).length = 1 from rfl] at h
    omega

/-- C7 (amended): the loader returns pages numbered `1, 2, 3, ...`
ascending and gapless from 1; for every positive `max_pages` it loads
at most `max_pages` pages (stopping silently, not erroring); for
`max_pages = 0` the limit is disabled and every page is loaded; and it
never loads more pages than the document has. -/
theorem load_pdf_pages_numbering (pdf : List PdfPage) (max_pages : Int)
    (ocr_all : Bool) :
    ∃ n, (load_pdf_pages pdf max_pages ocr_all).map Prod.fst = List.range' 1 n ∧
      (0 < max_pages → (n : Int) ≤ max_pages) ∧
      (max_pages = 0 → n = pdf.length) ∧
      n ≤ pdf.length := by
  refine ⟨(load_pdf_pages pdf max_pages ocr_all).length,
    load_pdf_go_map_fst pdf 1 max_pages ocr_all, ?_, ?_, ?_⟩
  · intro hpos
    have hb := (load_pdf_go_length_bound pdf 1 max_pages ocr_all hpos).1 (by omega)
    show ((load_pdf_go pdf 1 max_pages ocr_all).length : Int) ≤ max_pages
    omega
  · intro hzero
    subst hzero
    exact load_pdf_go_length_zero pdf 1 ocr_all
  · exact load_pdf_go_length_le pdf 1 max_pages ocr_all

/-- Witness for C7 (amended) on a two-page document with
`max_pages = 1`. -/
theorem load_pdf_pages_numbering_witness :
    ∃ n, (load_pdf_pages [⟨none, none⟩, ⟨none, none⟩] 1 false).map Prod.fst =
        List.range' 1 n ∧ (0 : Int) < 1 ∧ (n : Int) ≤ 1 := by
  obtain ⟨n, h1, h2, _, _⟩ :=
    load_pdf_pages_numbering [⟨none, none⟩, ⟨none, none⟩] 1 false
  exact ⟨n, h1, by decide, h2 (by decide)⟩

/-- Externally visible milestones of a CLI run. -/
inductive PipelineEvent where
  | loadPages : PipelineEvent
  | llmCall : PipelineEvent
  | writeOutput : PipelineEvent
  | fatalConfig : PipelineEvent
deriving DecidableEq

/-- Control-flow trace of `main` in `src/cli_gemini.py` as a function
of the API credential: `GEMINI_API_KEY` is checked first (lines 35-38),
before argument parsing, template loading, page loading and any LLM
call; absence exits fatally with nothing written. A present key
proceeds through page loading, LLM calls and the output write. -/
def gemini_main_trace (apiKey : Option String) : List PipelineEvent :=
  match apiKey with
  | none => [PipelineEvent.fatalConfig]
  | some _ => [PipelineEvent.loadPages, PipelineEvent.llmCall, PipelineEvent.writeOutput]

/-- Control-flow trace of `main` in `src/cli_mistral.py`: there is no
upfront key check; pages are loaded first (line 49; per-page OCR calls
raise `EnvironmentError` inside `mistral_ocr_image`, but
`load_pages_with_ocr` swallows per-page OCR exceptions), and a missing
`MISTRAL_API_KEY` only surfaces when `call_mistral`
(`src/services/mistral.py` lines 30-32) raises — after page loading,
before any output is written. -/
def mistral_main_trace (apiKey : Option String) : List PipelineEvent :=
  PipelineEvent.loadPages ::
    (match apiKey with
     | none => [PipelineEvent.fatalConfig]
     | some _ => [PipelineEvent.llmCall, PipelineEvent.writeOutput])

/-- C8 (counterexample): in the Mistral pipeline a missing credential
does not fail before page loading: the run loads pages first and only
then dies on the first chat API call. -/
theorem mistral_missing_key_counterexample :
    mistral_main_trace none = [PipelineEvent.loadPages, PipelineEvent.fatalConfig]
    ∧ PipelineEvent.loadPages ∈ mistral_main_trace none := by
  constructor
  · rfl
  · decide

/-- C8 (amended): the Gemini pipeline checks the credential before any
page loading or LLM processing and exits fatally on absence with no
output written; the Mistral pipeline surfaces the absence only at the
first chat-completion call, after page loading, and likewise writes no
output. -/
theorem credential_check_traces :
    gemini_main_trace none = [PipelineEvent.fatalConfig]
    ∧ PipelineEvent.loadPages ∉ gemini_main_trace none
    ∧ PipelineEvent.llmCall ∉ gemini_main_trace none
    ∧ PipelineEvent.writeOutput ∉ gemini_main_trace none
    ∧ PipelineEvent.llmCall ∉ mistral_main_trace none
    ∧ PipelineEvent.writeOutput ∉ mistral_main_trace none
    ∧ PipelineEvent.loadPages ∈ mistral_main_trace none := by
  refine ⟨rfl, ?_, ?_, ?_, ?_, ?_, ?_⟩ <;> decide
